import Mathlib

/-!
Verification development for the account-selection and window-analytics
engine of the repository (Bluesky/Twitter social-summary service).

The TypeScript sources are shallowly embedded:
  - pure functions become Lean functions;
  - JavaScript numbers used as counts and ids become Nat/Int, timestamps and
    ratios become exact rationals (JS floats are approximated by exact
    arithmetic; none of the verified properties depend on rounding);
  - nullable values become Option, with JS truthiness made explicit (an empty
    string is falsy);
  - external collaborators (the AppView profile resolver, the author-feed
    fetch, Date.parse, the wink-sentiment scorer, the override store, the
    configuration module) are parameters of the embedded functions;
  - a JS Map is an insertion-ordered association list (set replaces the value
    in place, a new key is appended at the end), matching Map iteration order;
  - Array.prototype.sort with a numeric comparator is a stable sort by the
    corresponding boolean "comes before or ties" relation, embedded as a
    structurally recursive stable insertion sort.
-/

/-! ## JS helper primitives -/

/-- Insertion-ordered association map, JS Map semantics: `set` on an existing
key replaces the value in place, on a fresh key appends at the end. -/
def jsMapSet {α : Type} (m : List (String × α)) (k : String) (v : α) :
    List (String × α) :=
  match m with
  | [] => [(k, v)]
  | (k', v') :: rest =>
    if k' = k then (k, v) :: rest else (k', v') :: jsMapSet rest k v

/-- JS Map `get`: first (and, given distinct keys, only) binding of a key. -/
def jsMapGet {α : Type} (m : List (String × α)) (k : String) : Option α :=
  match m with
  | [] => none
  | (k', v') :: rest => if k' = k then some v' else jsMapGet rest k

/-- JS Map `has`. -/
def jsMapHas {α : Type} (m : List (String × α)) (k : String) : Bool :=
  (jsMapGet m k).isSome

/-- Character-level lowercasing, embedding String.prototype.toLowerCase
(ASCII-faithful). -/
def jsToLower (s : String) : String :=
  String.mk (s.data.map Char.toLower)

/-- Does the needle occur at the start of the haystack? -/
def startsWithChars : List Char → List Char → Bool
  | [], _ => true
  | _ :: _, [] => false
  | a :: as, b :: bs => a == b && startsWithChars as bs

/-- Does the needle occur anywhere in the haystack? -/
def containsChars (needle : List Char) : List Char → Bool
  | [] => startsWithChars needle []
  | b :: bs => startsWithChars needle (b :: bs) || containsChars needle bs

/-- Embedding of String.prototype.includes (substring containment). -/
def jsIncludes (hay needle : String) : Bool :=
  containsChars needle.data hay.data

/-- Stable insertion of an element into a list: the element is placed before
the first entry it compares less-or-tied with, so earlier input elements stay
before later tied ones. -/
def insertLe {α : Type} (le : α → α → Bool) (x : α) : List α → List α
  | [] => [x]
  | y :: ys => if le x y then x :: y :: ys else y :: insertLe le x ys

/-- Stable sort by a boolean total preorder, embedding Array.prototype.sort
with a consistent numeric comparator (ECMAScript sort is stable; any stable
sort by the same total preorder yields the same output). -/
def stableSort {α : Type} (le : α → α → Bool) (l : List α) : List α :=
  l.foldr (insertLe le) []

/-! ## Tick generator (SSE route, src/src/lib/services/bskyService.ts lines
798-950): resume arithmetic, frame ids, and timer lifecycle -/

/-- One emitted SSE tick frame: the value written after `id:` and the `tick`
field of the JSON payload built by buildTick. -/
structure TickFrame where
  idField : Int
  payloadTick : Int
deriving DecidableEq

/-- Resume arithmetic of the route (line 836): a finite, non-negative
last-seen event id yields a starting tick of that id plus one, anything else
starts from zero. -/
def tickStartTick (lastEventId : Option Int) : Int :=
  match lastEventId with
  | some v => if 0 ≤ v then v + 1 else 0
  | none => 0

/-- The tick loop (lines 878-900): each iteration builds the payload with the
current tick value via a post-increment (`buildTick(..., tick++, ...)`), then
writes the already-incremented counter after `id:`. -/
def tickStreamFrames : Int → Nat → List TickFrame
  | _, 0 => []
  | tick, n + 1 =>
    let payload := tick
    let tick' := tick + 1
    ⟨tick', payload⟩ :: tickStreamFrames tick' n

/-- Timer bookkeeping of one streaming connection: the heartbeat interval
(`pinger`) and the 15-minute connection-cap timeout (`closer`). -/
structure TickStreamTimers where
  stopped : Bool
  heartbeatActive : Bool
  capTimerPending : Bool
  closed : Bool
deriving DecidableEq

/-- State right after `start(controller)` ran: heartbeat interval set
(line 868), cap timeout set (line 923). -/
def tickStreamStart : TickStreamTimers :=
  { stopped := false, heartbeatActive := true, capTimerPending := true,
    closed := false }

/-- Natural loop exit (phase `ended`, lines 902-911): clears the heartbeat
interval and closes the controller; the cap timeout is left untouched. -/
def tickStreamLoopExit (s : TickStreamTimers) : TickStreamTimers :=
  { s with heartbeatActive := false, closed := true }

/-- The connection-cap timeout fires (lines 923-934): sets the stop flag,
clears the heartbeat, closes the controller; the timeout itself is no longer
pending once it has fired. -/
def tickStreamCapFire (s : TickStreamTimers) : TickStreamTimers :=
  { s with
    stopped := true
    heartbeatActive := false
    capTimerPending := false
    closed := true }

/-- External cancellation (`cancel()`, lines 936-946): sets the stop flag and
clears both timers. -/
def tickStreamCancel (s : TickStreamTimers) : TickStreamTimers :=
  { s with
    stopped := true
    heartbeatActive := false
    capTimerPending := false }

/-- Claim-side predicate: no timer of the connection remains scheduled. -/
def allTimersCleared (s : TickStreamTimers) : Prop :=
  s.heartbeatActive = false ∧ s.capTimerPending = false

/-! ## Summarization budget (src/unnamed/part_001, the summaries/latest
route): the only character bound applied to the joined prompt -/

/-- Default post cap of the summaries route (line 59). -/
def MAX_POSTS : Nat := 150

/-- Default character cap of the summaries route (line 60); `MAX_CHARS_ENV`
equals it when `SUMMARIES_MAX_CHARS` is unset, as in the repository's own
budget test. -/
def MAX_CHARS : Nat := 12000

/-- Post line formatting of the route (line 203):
a bracketed ISO timestamp, the at-prefixed author handle, a colon, the text. -/
def formatPostLine (isoTs handle text : String) : String :=
  "[" ++ isoTs ++ "] " ++ "@" ++ handle ++ ": " ++ text

/-- The route joins the formatted post lines with one newline per post
(line 210). -/
def joinTexts (texts : List String) : String :=
  String.intercalate "\n" texts

/-- The route's only truncation of the joined prompt (lines 231-233): a hard
cut at `MAX_CHARS_ENV` characters, applied only when the joined string
exceeds it. -/
def truncateJoined (maxCharsEnv : Nat) (joined : String) : String :=
  if joined.length > maxCharsEnv then String.mk (joined.data.take maxCharsEnv)
  else joined

/-- Modelled from the spec: the Budget Planner's character budget,
`availableChars = (modelMaxTokens - reservedResponseTokens) * charsPerToken`.
No code in the route computes this quantity; it appears only in the spec and
in the expectations of the repository's own test
src/src/routes/api/summaries/latest/budget.test.ts. -/
def availableChars (modelMaxTokens reservedResponseTokens charsPerToken : Nat) :
    Nat :=
  (modelMaxTokens - reservedResponseTokens) * charsPerToken

/-- The scenario of the repository's budget test: 50-character post texts from
handle user1.example, ISO timestamps of 24 characters. -/
def budgetTestLine : String :=
  formatPostLine "2025-10-19T12:00:00.000Z" "user1.example"
    (String.mk (List.replicate 50 'x'))

/-- A joined corpus of six budget-test posts; long enough to exceed the
400-character budget the test configures, far below the 12000-character cap
the route actually applies. -/
def budgetTestJoined : String :=
  joinTexts (List.replicate 6 budgetTestLine)

/-! ## Profiles, eligibility and account selection
(src/src/lib/services/bskyService.ts lines 14-298; the Twitter service lines
541-743 shares the same shape with its own constants, resolver and
unknown-age wording, so the definitions are parameterized by a platform
configuration) -/

/-- Basic profile snapshot. A missing/empty did is the empty string (JS
truthiness of `p?.did`); missing counts and creation time are `none`. -/
structure ProfileBasic where
  did : String
  handle : String
  displayName : Option String
  followersCount : Option Int
  postsCount : Option Int
  createdAt : Option String
deriving DecidableEq

structure Eligibility where
  eligible : Bool
  reasons : List String
deriving DecidableEq

structure SelectedAccount where
  profile : ProfileBasic
  eligibility : Eligibility
deriving DecidableEq

/-- Override rule identifier type: the platform-native id (did on Bluesky,
user_id on Twitter) or a handle. -/
inductive IdentifierType
  | did
  | handle
deriving DecidableEq

/-- Admin override rule as the selector consumes it (expiry filtering happens
in the override store before the selector runs). -/
structure OverrideRule where
  identifier : String
  identifier_type : IdentifierType
  handle : Option String
  bypass_eligibility : Bool
deriving DecidableEq

/-- Per-platform configuration constants (the config module is not part of
the sources, so the constants stay abstract). -/
structure PlatformConfig where
  minFollowers : Int
  minAccountMonths : ℚ
  maxAccounts : Nat
  unknownAgeReason : String

/-- The unknown-age disclosure literal of the Bluesky service (line 190). -/
def bskyUnknownAgeReason : String :=
  "age=unknown (AppView); allowed based on followers/activity"

/-- The unknown-age disclosure literal of the Twitter service (line 632). -/
def twitterUnknownAgeReason : String :=
  "age=unknown; allowed based on followers/activity"

/-- Months between two timestamps in milliseconds, a month approximated as 30
days (lines 88-92). -/
def monthsBetween (a b : ℚ) : ℚ :=
  |a - b| / (1000 * 60 * 60 * 24 * 30)

/-- Number.prototype.toFixed(1) on a non-negative value, used only inside the
age diagnostic strings. -/
def toFixed1 (q : ℚ) : String :=
  let n : Int := round (q * 10)
  toString (n / 10) ++ "." ++ toString (n % 10)

/-- Follower diagnostic for a failing check (line 175). -/
def followersFailReason (cfg : PlatformConfig) (p : ProfileBasic) : String :=
  "followers=" ++ toString (p.followersCount.getD 0) ++ " < min=" ++
    toString cfg.minFollowers

/-- Eligibility of a profile (lines 168-194): a follower check and an
account-age check, each contributing one diagnostic string; the flag starts
true and each failing check clears it. `dateParse` abstracts
`new Date(string).getTime()`, `none` standing for an invalid date (NaN), in
which case both age comparisons are false and the check passes. -/
def computeEligibility (cfg : PlatformConfig) (dateParse : String → Option ℚ)
    (now : ℚ) (profile : ProfileBasic) : Eligibility :=
  let followers : Int := profile.followersCount.getD 0
  let st1 : Bool × List String :=
    if followers < cfg.minFollowers then
      (false, [followersFailReason cfg profile])
    else
      (true, ["followers=" ++ toString followers ++ " ≥ min=" ++
        toString cfg.minFollowers])
  let st2 : Bool × List String :=
    match profile.createdAt with
    | some s =>
      if s = "" then (st1.1, st1.2 ++ [cfg.unknownAgeReason])
      else
        match dateParse s with
        | some t =>
          let months := monthsBetween t now
          if months < cfg.minAccountMonths then
            (false, st1.2 ++ ["age=" ++ toFixed1 months ++ "mo < min=" ++
              toString cfg.minAccountMonths ++ "mo"])
          else
            (st1.1, st1.2 ++ ["age=" ++ toFixed1 months ++ "mo ≥ min=" ++
              toString cfg.minAccountMonths ++ "mo"])
        | none =>
          (st1.1, st1.2 ++ ["age=NaNmo ≥ min=" ++
            toString cfg.minAccountMonths ++ "mo"])
    | none => (st1.1, st1.2 ++ [cfg.unknownAgeReason])
  { eligible := st2.1, reasons := st2.2 }

/-- Claim-side predicate, following the spec wording: the follower check
passes unless the follower count (default 0) is below the minimum. -/
def followerCheckPassed (cfg : PlatformConfig) (p : ProfileBasic) : Bool :=
  !decide (p.followersCount.getD 0 < cfg.minFollowers)

/-- Claim-side predicate: the creation timestamp is unknown (null, undefined
or empty). -/
def ageUnknown (p : ProfileBasic) : Bool :=
  match p.createdAt with
  | some s => s = ""
  | none => true

/-- Claim-side predicate, following the spec wording: with a known creation
time the age check fails exactly when the account is younger than the
configured minimum. -/
def ageCheckPassed (cfg : PlatformConfig) (dateParse : String → Option ℚ)
    (now : ℚ) (p : ProfileBasic) : Bool :=
  match p.createdAt with
  | some s =>
    if s = "" then true
    else
      match dateParse s with
      | some t => !decide (monthsBetween t now < cfg.minAccountMonths)
      | none => true
  | none => true

/-- Selection key of a profile (line 214): native id when present, else
handle. -/
def keyOf (p : ProfileBasic) : String :=
  if p.did = "" then "handle:" ++ p.handle else "did:" ++ p.did

/-- Key of an override rule from its declared identifier type (lines 233,
252, 265). -/
def ruleKey (o : OverrideRule) : String :=
  match o.identifier_type with
  | .did => "did:" ++ o.identifier
  | .handle => "handle:" ++ o.identifier

/-- Resolved include profiles keyed by their own profile key (lines
226-229). -/
def includeByKeyBase (includeProfiles : List ProfileBasic) :
    List (String × ProfileBasic) :=
  includeProfiles.foldl (fun m p => jsMapSet m (keyOf p) p) []

/-- Fallback handle of an include rule whose lookup failed: the rule's
declared handle, else the identifier itself when it is a handle (line
235). -/
def includeFallbackHandle (o : OverrideRule) : String :=
  o.handle.getD (match o.identifier_type with
    | .handle => o.identifier
    | .did => "")

/-- Include map after the fallback pass (lines 232-247): any include rule
whose key is not yet present and that has a usable handle gets a synthesized
minimal profile. -/
def includeByKey (includeProfiles : List ProfileBasic)
    (inc : List OverrideRule) : List (String × ProfileBasic) :=
  inc.foldl (fun m o =>
    if jsMapHas m (ruleKey o) then m
    else
      let h := includeFallbackHandle o
      if h = "" then m
      else jsMapSet m (ruleKey o)
        { did := "", handle := h, displayName := some h,
          followersCount := some 0, postsCount := some 0, createdAt := none })
    (includeByKeyBase includeProfiles)

/-- Exclude key set (lines 250-254). -/
def excludeKeys (exc : List OverrideRule) : List String :=
  exc.map ruleKey

/-- Exclusion test of a profile (lines 256-260): matched when its did key or
its handle key (each only when non-empty) is in the exclude set. -/
def isExcluded (exKeys : List String) (p : ProfileBasic) : Bool :=
  (p.did != "" && exKeys.contains ("did:" ++ p.did)) ||
  (p.handle != "" && exKeys.contains ("handle:" ++ p.handle))

/-- The forced eligibility attached to a bypassing include (line 270). -/
def includeOverrideEligibility : Eligibility :=
  { eligible := true, reasons := ["admin:include override (bypass=true)"] }

/-- One iteration of the include loop (lines 263-274). -/
def includeStep (cfg : PlatformConfig) (dateParse : String → Option ℚ)
    (now : ℚ) (m : List (String × ProfileBasic)) (exKeys : List String)
    (acc : List SelectedAccount) (o : OverrideRule) : List SelectedAccount :=
  match jsMapGet m (ruleKey o) with
  | none => acc
  | some p =>
    if isExcluded exKeys p then acc
    else
      let elig := if o.bypass_eligibility then includeOverrideEligibility
                  else computeEligibility cfg dateParse now p
      if !o.bypass_eligibility && !elig.eligible then acc
      else acc ++ [{ profile := p, eligibility := elig }]

/-- Include-derived selection (lines 262-274). -/
def selectedInclude (cfg : PlatformConfig) (dateParse : String → Option ℚ)
    (now : ℚ) (includeProfiles : List ProfileBasic)
    (inc exc : List OverrideRule) : List SelectedAccount :=
  inc.foldl
    (includeStep cfg dateParse now (includeByKey includeProfiles inc)
      (excludeKeys exc)) []

/-- One iteration of the base-allowlist loop (lines 277-285). -/
def baseStep (cfg : PlatformConfig) (dateParse : String → Option ℚ) (now : ℚ)
    (exKeys : List String) (incSel : List SelectedAccount)
    (acc : List SelectedAccount) (p : ProfileBasic) : List SelectedAccount :=
  if isExcluded exKeys p then acc
  else if incSel.any (fun si => keyOf si.profile = keyOf p) then acc
  else
    let elig := computeEligibility cfg dateParse now p
    if !elig.eligible then acc
    else acc ++ [{ profile := p, eligibility := elig }]

/-- Base-allowlist selection (lines 276-285): excluded and already-included
profiles are skipped, the rest kept when eligible. -/
def selectedBase (cfg : PlatformConfig) (dateParse : String → Option ℚ)
    (now : ℚ) (baseProfiles includeProfiles : List ProfileBasic)
    (inc exc : List OverrideRule) : List SelectedAccount :=
  baseProfiles.foldl
    (baseStep cfg dateParse now (excludeKeys exc)
      (selectedInclude cfg dateParse now includeProfiles inc exc)) []

/-- Follower-descending comparator of the final sort (line 289). -/
def byFollowersDesc (a b : SelectedAccount) : Bool :=
  decide (b.profile.followersCount.getD 0 ≤ a.profile.followersCount.getD 0)

/-- The selector (lines 205-298), as a pure function of its external inputs:
resolved base allowlist profiles, resolved include profiles, override rules
and configuration. Merges includes first, sorts by follower count, and on
overflow keeps every include and fills the rest with a base-slice (the Nat
subtraction is exactly `Math.max(MAX - includesCount, 0)`). -/
def selectEligibleAccounts (cfg : PlatformConfig)
    (dateParse : String → Option ℚ) (now : ℚ)
    (baseProfiles includeProfiles : List ProfileBasic)
    (inc exc : List OverrideRule) : List SelectedAccount :=
  let incSel := selectedInclude cfg dateParse now includeProfiles inc exc
  let baseSel :=
    selectedBase cfg dateParse now baseProfiles includeProfiles inc exc
  let merged := stableSort byFollowersDesc (incSel ++ baseSel)
  if merged.length > cfg.maxAccounts then
    incSel ++ baseSel.take (cfg.maxAccounts - incSel.length)
  else merged

/-- A parse function for scenarios where no date string resolves (every
include profile in them is synthesized with a null createdAt anyway). -/
def noParse : String → Option ℚ := fun _ => none

/-- Concrete include rule by handle with eligibility bypass. -/
def mkBypassHandleRule (ident : String) : OverrideRule :=
  { identifier := ident, identifier_type := .handle, handle := none,
    bypass_eligibility := true }

/-- Configuration with a platform maximum of 2 for the cap scenario. -/
def capCounterCfg : PlatformConfig :=
  { minFollowers := 0, minAccountMonths := 0, maxAccounts := 2,
    unknownAgeReason := bskyUnknownAgeReason }

/-- Three distinct bypassing include rules. -/
def capCounterIncludes : List OverrideRule :=
  [mkBypassHandleRule "a.test", mkBypassHandleRule "b.test",
   mkBypassHandleRule "c.test"]

/-- Configuration with a platform maximum of 5 for the remaining selection
scenarios. -/
def smallCfg : PlatformConfig :=
  { minFollowers := 0, minAccountMonths := 0, maxAccounts := 5,
    unknownAgeReason := bskyUnknownAgeReason }

/-- Include rule naming a native id, carrying a declared handle, bypassing
eligibility. -/
def c1IncRule : OverrideRule :=
  { identifier := "did:plc:alice", identifier_type := .did,
    handle := some "alice.test", bypass_eligibility := true }

/-- Exclude rule naming the same native id as c1IncRule. -/
def c1ExcRule : OverrideRule :=
  { identifier := "did:plc:alice", identifier_type := .did, handle := none,
    bypass_eligibility := false }

/-- The synthesized fallback profile the selector builds for c1IncRule when
resolution fails. -/
def c1Fallback : ProfileBasic :=
  { did := "", handle := "alice.test", displayName := some "alice.test",
    followersCount := some 0, postsCount := some 0, createdAt := none }

/-- Include rule naming a native id with no declared handle, bypassing
eligibility. -/
def c4xRule : OverrideRule :=
  { identifier := "did:plc:bob", identifier_type := .did, handle := none,
    bypass_eligibility := true }

/-- Profile with unknown age and zero followers for the eligibility
witness. -/
def c6wProfile : ProfileBasic :=
  { did := "did:w", handle := "w.test", displayName := none,
    followersCount := some 0, postsCount := none, createdAt := none }

/-- Configuration demanding five followers and six months for the
eligibility witness. -/
def c6wCfg : PlatformConfig :=
  { minFollowers := 5, minAccountMonths := 6, maxAccounts := 10,
    unknownAgeReason := bskyUnknownAgeReason }

/-! ## Posts and sentiment aggregation
(src/src/lib/services/bskyService.ts lines 33-43 and 374-402) -/

/-- Normalized post. `uri` and `cid` are optional because the fetch loop
copies possibly-absent fields of the feed item straight into the object it
pushes. -/
structure SimplePost where
  uri : Option String
  cid : Option String
  authorDid : String
  authorHandle : String
  authorDisplayName : Option String
  text : String
  createdAt : String
deriving DecidableEq

structure SentimentCounts where
  total : Nat
  pos : Nat
  neg : Nat
  neu : Nat
deriving DecidableEq

structure SentimentRatios where
  pos : ℚ
  neg : ℚ
  neu : ℚ
deriving DecidableEq

structure SentimentSummary where
  ratios : SentimentRatios
  counts : SentimentCounts
deriving DecidableEq

/-- One iteration of the sentiment loop (lines 379-385): a positive score
increments pos, a negative one neg, zero neu. `score` abstracts the
wink-sentiment library call with its non-numeric-score fallback to 0. -/
def sentimentStep (score : String → Int) (t : Nat × Nat × Nat)
    (p : SimplePost) : Nat × Nat × Nat :=
  let s := score p.text
  if s > 0 then (t.1 + 1, t.2.1, t.2.2)
  else if s < 0 then (t.1, t.2.1 + 1, t.2.2)
  else (t.1, t.2.1, t.2.2 + 1)

/-- The (pos, neg, neu) counters after the sentiment loop. -/
def sentimentTally (score : String → Int) (posts : List SimplePost) :
    Nat × Nat × Nat :=
  posts.foldl (sentimentStep score) (0, 0, 0)

/-- Sentiment aggregation (lines 374-402): explicit all-zero result on an
empty list, otherwise count-over-total ratios. -/
def summarizeSentiment (score : String → Int) (posts : List SimplePost) :
    SentimentSummary :=
  let t := sentimentTally score posts
  let total := posts.length
  if total = 0 then
    { ratios := { pos := 0, neg := 0, neu := 0 },
      counts := { total := 0, pos := 0, neg := 0, neu := 0 } }
  else
    { ratios :=
        { pos := (t.1 : ℚ) / total
          neg := (t.2.1 : ℚ) / total
          neu := (t.2.2 : ℚ) / total }
      counts :=
        { total := posts.length
          pos := t.1
          neg := t.2.1
          neu := t.2.2 } }

/-! ## Recent post fetch (src/src/lib/services/bskyService.ts lines 309-366)
-/

/-- Feed record shape: `text` is present only when the raw field is a string
(the source checks `typeof record?.text === 'string'`). -/
structure FeedRecord where
  text : Option String
  createdAt : Option String
deriving DecidableEq

/-- Feed post view with the fields the loop reads. -/
structure FeedPostView where
  uri : Option String
  cid : Option String
  indexedAt : Option String
  authorDid : Option String
  authorHandle : Option String
  authorDisplayName : Option String
  record : Option FeedRecord
deriving DecidableEq

/-- One author-feed item; test mocks may place the record on the item instead
of the post, and the source tolerates both (line 339). -/
structure FeedItem where
  post : Option FeedPostView
  record : Option FeedRecord
deriving DecidableEq

/-- `const record = post?.record ?? item?.record` (line 339). -/
def itemRecord (it : FeedItem) : Option FeedRecord :=
  match it.post with
  | some p =>
    match p.record with
    | some r => some r
    | none => it.record
  | none => it.record

/-- `const createdAt = record?.createdAt || post?.indexedAt` (line 340): a
missing or empty record timestamp falls through to the post's indexedAt. -/
def itemCreatedAt (it : FeedItem) : Option String :=
  match (itemRecord it).bind FeedRecord.createdAt with
  | some s => if s = "" then it.post.bind FeedPostView.indexedAt else some s
  | none => it.post.bind FeedPostView.indexedAt

/-- `const text = typeof record?.text === 'string' ? record.text : ''`
(line 345). -/
def itemText (it : FeedItem) : String :=
  ((itemRecord it).bind FeedRecord.text).getD ""

/-- The object pushed for a kept feed item (lines 348-358), with the
account's profile as fallback for missing author fields. -/
def feedItemPost (acct : SelectedAccount) (it : FeedItem)
    (createdAt text : String) : SimplePost :=
  { uri := it.post.bind FeedPostView.uri
    cid := it.post.bind FeedPostView.cid
    authorDid := (it.post.bind FeedPostView.authorDid).getD acct.profile.did
    authorHandle :=
      (it.post.bind FeedPostView.authorHandle).getD acct.profile.handle
    authorDisplayName :=
      match it.post.bind FeedPostView.authorDisplayName with
      | some d => some d
      | none => acct.profile.displayName
    text := text
    createdAt := createdAt }

/-- One iteration of the per-item loop (lines 336-359): skip when the derived
createdAt is missing or empty; skip when it parses to a finite timestamp
strictly older than `since` (an unparseable timestamp, NaN, never triggers
this skip); skip when the text is empty; otherwise push. -/
def feedItemStep (dateParse : String → Option ℚ) (since : ℚ)
    (acct : SelectedAccount) (out : List SimplePost) (item : FeedItem) :
    List SimplePost :=
  match itemCreatedAt item with
  | none => out
  | some createdAt =>
    if createdAt = "" then out
    else
      let skipByAge :=
        match dateParse createdAt with
        | some ts => decide (ts < since)
        | none => false
      if skipByAge then out
      else
        let text := itemText item
        if text = "" then out
        else out ++ [feedItemPost acct item createdAt text]

/-- `const actor = acct.profile.did || acct.profile.handle` (line 326). -/
def actorOf (acct : SelectedAccount) : String :=
  if acct.profile.did = "" then acct.profile.handle else acct.profile.did

/-- The fetch loop (lines 309-366) as a pure function of its external inputs:
each selected account is paired with the feed its author-feed query returned
(a failed query contributes an empty feed; the source swallows per-account
errors). The lookback validation and `since` computation follow lines
314-316; accounts with no usable actor are skipped. -/
def fetchRecentPostsForAccounts (dateParse : String → Option ℚ) (nowMs : ℚ)
    (defaultRecencyMinutes : ℚ) (sinceMinutes : Option ℚ)
    (accounts : List (SelectedAccount × List FeedItem)) : List SimplePost :=
  let minutes :=
    match sinceMinutes with
    | some m => if 0 < m then m else defaultRecencyMinutes
    | none => defaultRecencyMinutes
  let since := nowMs - minutes * 60000
  accounts.foldl (fun out a =>
    if actorOf a.1 = "" then out
    else (a.2).foldl (feedItemStep dateParse since a.1) out) []

/-- Profile of the account used in the fetch scenarios. -/
def c10Profile : ProfileBasic :=
  { did := "did:c10", handle := "c10.test", displayName := none,
    followersCount := none, postsCount := none, createdAt := none }

/-- Selected account used in the fetch scenarios. -/
def c10Acct : SelectedAccount :=
  { profile := c10Profile, eligibility := includeOverrideEligibility }

/-- Text-bearing feed item whose only timestamp is the empty string (which
Date.parse maps to NaN). -/
def c10EmptyDateItem : FeedItem :=
  { post := none, record := some { text := some "hello", createdAt := some "" } }

/-- Text-bearing feed item with a non-empty, unparseable timestamp. -/
def c10BadDateItem : FeedItem :=
  { post := none,
    record := some { text := some "hello", createdAt := some "not-a-date" } }

/-- Post used in the sentiment witness. -/
def c8wPost : SimplePost :=
  { uri := none, cid := none, authorDid := "did:c8", authorHandle := "c8.test",
    authorDisplayName := none, text := "ok", createdAt := "t" }

/-- Scorer mapping every text to 0 (neutral). -/
def zeroScore : String → Int := fun _ => 0

/-! ## Topic extraction (src/src/lib/services/bskyService.ts lines 413-433)
-/

structure TopicEntry where
  keyword : String
  count : Nat
deriving DecidableEq

/-- The lowercase-to-original keyword map (lines 415-418): later keywords
with the same lowercase overwrite the stored original in place. -/
def origByLower (keywords : List String) : List (String × String) :=
  keywords.foldl (fun m k => jsMapSet m (jsToLower k) k) []

/-- The per-post tally update (lines 421-428): each keyword whose lowercase
occurs in the lowercased post text has its count (keyed by the stored
original casing) incremented once. -/
def bumpCounts (obl : List (String × String)) (lowText : String)
    (c : List (String × Nat)) : List (String × Nat) :=
  obl.foldl (fun c e =>
    if jsIncludes lowText e.1 then
      jsMapSet c e.2 ((jsMapGet c e.2).getD 0 + 1)
    else c) c

/-- The keyword tally over all posts (lines 420-428). -/
def topicCounts (posts : List SimplePost) (keywords : List String) :
    List (String × Nat) :=
  posts.foldl
    (fun c p => bumpCounts (origByLower keywords) (jsToLower p.text) c) []

/-- Comparator of the topics sort (line 431): descending count. -/
def byCountDesc (a b : TopicEntry) : Bool :=
  decide (b.count ≤ a.count)

/-- Topic extraction (lines 413-433): tally, sort by descending count
(stable), top ten. -/
def extractTopics (posts : List SimplePost) (keywords : List String) :
    List TopicEntry :=
  (stableSort byCountDesc
    ((topicCounts posts keywords).map (fun e => ⟨e.1, e.2⟩))).take 10

/-- Claim-side predicate: the post text contains the keyword
case-insensitively. -/
def matchesKeyword (kw : String) (p : SimplePost) : Bool :=
  jsIncludes (jsToLower p.text) (jsToLower kw)

/-- Index of the first post containing the keyword (the list length when no
post does). -/
def firstHit (posts : List SimplePost) (kw : String) : Nat :=
  posts.findIdx (matchesKeyword kw)

/-- Index of the first configured keyword with the given lowercase. -/
def kwLowIdx (kws : List String) (l : String) : Nat :=
  kws.findIdx (fun k0 => jsToLower k0 == l)

/-- Configuration position of a keyword: the index of the first configured
keyword equal to it up to case. -/
def kwConfigIdx (keywords : List String) (kw : String) : Nat :=
  kwLowIdx keywords (jsToLower kw)

/-- The tie order the tally actually produces: the keyword whose first
matching post comes earlier wins; within one post, the keyword earlier in
the configuration wins. -/
def firstMatchRank (posts : List SimplePost) (keywords : List String)
    (a b : String) : Prop :=
  firstHit posts a < firstHit posts b ∨
    (firstHit posts a = firstHit posts b ∧
      kwConfigIdx keywords a < kwConfigIdx keywords b)

/-- Invariant of the keyword tally after processing a list of posts: every
binding holds a positive count equal to the number of processed posts
containing its keyword; keys are distinct and drawn from the stored keyword
originals; every keyword matching a processed post is present; and keys are
ordered by first-match rank. -/
def TallyInv (posts : List SimplePost) (keywords : List String)
    (obl : List (String × String)) (c : List (String × Nat)) : Prop :=
  (∀ e ∈ c, 0 < e.2 ∧ e.2 = posts.countP (matchesKeyword e.1)) ∧
  ((c.map Prod.fst).Pairwise (fun a b => a ≠ b)) ∧
  (∀ o ∈ c.map Prod.fst, o ∈ obl.map Prod.snd) ∧
  (∀ e ∈ obl, 0 < posts.countP (matchesKeyword e.2) →
    e.2 ∈ c.map Prod.fst) ∧
  ((c.map Prod.fst).Pairwise (firstMatchRank posts keywords))

/-- Post with the given text, for the topics scenarios. -/
def c7Post (t : String) : SimplePost :=
  { uri := none, cid := none, authorDid := "did:c7", authorHandle := "c7.test",
    authorDisplayName := none, text := t, createdAt := "t" }

/-! ## Theorems -/

/-- C2: the tick-generator stream resumed from a last-seen event id of 5 does
not emit its first frame with id 6. The payload tick is 6, but the value
written after `id:` is the post-incremented counter, 7 (and subsequent frame
ids are 8, 9, ...), so the claimed first frame id of lastEventId + 1 is off
by one: the code contradicts its own resume arithmetic, which advances the
starting tick to exactly lastSeen + 1. -/
theorem tickStream_first_frame_id_off_by_one :
    tickStreamFrames (tickStartTick (some 5)) 3 =
      [⟨7, 6⟩, ⟨8, 7⟩, ⟨9, 8⟩] ∧
    (tickStreamFrames (tickStartTick (some 5)) 3).map TickFrame.idField ≠
      [6, 7, 8] := by
  constructor
  · rfl
  · decide

/-- C9: not every exit path of the tick-generator stream clears both timers.
The cap path and the cancel path do clear everything, but the natural
phase-driven end (event `ended`) clears only the heartbeat interval and
leaves the 15-minute connection-cap timeout pending after the stream has
closed. -/
theorem tickStream_natural_end_leaves_cap_timer :
    (tickStreamLoopExit tickStreamStart).closed = true ∧
    ¬ allTimersCleared (tickStreamLoopExit tickStreamStart) ∧
    allTimersCleared (tickStreamCapFire tickStreamStart) ∧
    allTimersCleared (tickStreamCancel tickStreamStart) := by
  refine ⟨by decide, ?_, ⟨by decide, by decide⟩, ⟨by decide, by decide⟩⟩
  intro h
  exact absurd h.2 (by decide)

set_option maxRecDepth 40000 in
/-- C5: the summaries route never computes
`availableChars = (modelMaxTokens - reservedResponseTokens) * charsPerToken`;
its only bound on the joined prompt is the `MAX_CHARS_ENV` hard cut (12000 by
default). In the configuration of the repository's own budget test
(modelMaxTokens 1000, reservedResponseTokens 600, charsPerToken 1, budget
400), a six-post corpus of 563 characters is forwarded whole, exceeding the
400-character budget the test requires. -/
theorem summaries_budget_not_enforced :
    availableChars 1000 600 1 = 400 ∧
    truncateJoined MAX_CHARS budgetTestJoined = budgetTestJoined ∧
    budgetTestJoined.length = 563 ∧
    400 < budgetTestJoined.length := by
  refine ⟨rfl, ?_, ?_, ?_⟩
  · decide
  · decide
  · decide

/-- Unfolding equation for insertion into a non-empty list. -/
theorem insertLe_cons {α : Type} (le : α → α → Bool) (x y : α) (ys : List α) :
    insertLe le x (y :: ys) =
      if le x y then x :: y :: ys else y :: insertLe le x ys := rfl

/-- Stable insertion permutes to consing. -/
theorem insertLe_perm {α : Type} (le : α → α → Bool) (x : α) (l : List α) :
    (insertLe le x l).Perm (x :: l) := by
  induction l with
  | nil => exact List.Perm.refl _
  | cons y ys ih =>
    rw [insertLe_cons]
    cases hxy : le x y with
    | true => simp
    | false => exact (ih.cons y).trans (List.Perm.swap x y ys)

/-- The stable sort permutes its input. -/
theorem stableSort_perm {α : Type} (le : α → α → Bool) (l : List α) :
    (stableSort le l).Perm l := by
  induction l with
  | nil => exact List.Perm.refl _
  | cons x xs ih =>
    have h : stableSort le (x :: xs) = insertLe le x (stableSort le xs) := rfl
    rw [h]
    exact (insertLe_perm le x _).trans (ih.cons x)

/-- Sortedness-with-stability of insertion: inserting an input-earlier
element into a sorted list keeps the list pairwise ordered by the comparator
and, among ties, by the original order relation R. -/
theorem insertLe_pairwise {α : Type} {le : α → α → Bool} {R : α → α → Prop}
    (htr : ∀ a b c, le a b = true → le b c = true → le a c = true)
    (htot : ∀ a b, le a b = true ∨ le b a = true)
    {x : α} {l : List α}
    (hl : l.Pairwise (fun a b => le a b = true ∧ (le b a = true → R a b)))
    (hx : ∀ y ∈ l, R x y) :
    (insertLe le x l).Pairwise
      (fun a b => le a b = true ∧ (le b a = true → R a b)) := by
  induction l with
  | nil => simp [insertLe]
  | cons y ys ih =>
    rw [List.pairwise_cons] at hl
    obtain ⟨hy, hys⟩ := hl
    rw [insertLe_cons]
    cases hxy : le x y with
    | true =>
      refine List.pairwise_cons.mpr ⟨?_, List.pairwise_cons.mpr ⟨hy, hys⟩⟩
      intro z hz
      rcases List.mem_cons.mp hz with rfl | hz'
      · exact ⟨hxy, fun _ => hx z (List.mem_cons_self _ _)⟩
      · exact ⟨htr x y z hxy (hy z hz').1,
          fun _ => hx z (List.mem_cons_of_mem _ hz')⟩
    | false =>
      refine List.pairwise_cons.mpr
        ⟨?_, ih hys (fun z hz => hx z (List.mem_cons_of_mem _ hz))⟩
      intro z hz
      have hz' : z = x ∨ z ∈ ys := by
        have hmem := (insertLe_perm le x ys).mem_iff.mp hz
        simpa using hmem
      rcases hz' with rfl | hz'
      · have hyx : le y z = true := by
          rcases htot z y with h1 | h1
          · rw [hxy] at h1; cases h1
          · exact h1
        exact ⟨hyx, fun hzy => by rw [hxy] at hzy; cases hzy⟩
      · exact hy z hz'

/-- Sortedness-with-stability of the stable sort: given a transitive total
comparator and an input pairwise ordered by R, the output is pairwise ordered
by the comparator, and tied pairs keep their R-order. -/
theorem stableSort_pairwise {α : Type} {le : α → α → Bool} {R : α → α → Prop}
    (htr : ∀ a b c, le a b = true → le b c = true → le a c = true)
    (htot : ∀ a b, le a b = true ∨ le b a = true)
    {l : List α} (hl : l.Pairwise R) :
    (stableSort le l).Pairwise
      (fun a b => le a b = true ∧ (le b a = true → R a b)) := by
  induction l with
  | nil => simp [stableSort]
  | cons x xs ih =>
    rw [List.pairwise_cons] at hl
    have h : stableSort le (x :: xs) = insertLe le x (stableSort le xs) := rfl
    rw [h]
    refine insertLe_pairwise htr htot (ih hl.2) ?_
    intro y hy
    exact hl.1 y ((stableSort_perm le xs).mem_iff.mp hy)

/-- The include loop only ever appends. -/
theorem includeStep_mem_of_mem (cfg : PlatformConfig)
    (dateParse : String → Option ℚ) (now : ℚ)
    (m : List (String × ProfileBasic)) (ex : List String)
    (acc : List SelectedAccount) (o : OverrideRule) {a : SelectedAccount}
    (ha : a ∈ acc) :
    a ∈ includeStep cfg dateParse now m ex acc o := by
  unfold includeStep
  cases hget : jsMapGet m (ruleKey o) with
  | none => exact ha
  | some p =>
    dsimp only
    split
    · exact ha
    · split <;> split <;>
        first
        | exact ha
        | exact List.mem_append_left _ ha

/-- Folding the include loop preserves accumulated members. -/
theorem foldl_includeStep_mem_of_mem (cfg : PlatformConfig)
    (dateParse : String → Option ℚ) (now : ℚ)
    (m : List (String × ProfileBasic)) (ex : List String) :
    ∀ (l : List OverrideRule) (acc : List SelectedAccount) (a : SelectedAccount),
      a ∈ acc → a ∈ l.foldl (includeStep cfg dateParse now m ex) acc := by
  intro l
  induction l with
  | nil => intro acc a ha; exact ha
  | cons o os ih =>
    intro acc a ha
    rw [List.foldl_cons]
    exact ih _ a (includeStep_mem_of_mem cfg dateParse now m ex acc o ha)

/-- A bypassing include rule whose key resolves to a non-excluded profile is
appended with the forced override eligibility. -/
theorem includeStep_bypass_push (cfg : PlatformConfig)
    (dateParse : String → Option ℚ) (now : ℚ)
    (m : List (String × ProfileBasic)) (ex : List String)
    (acc : List SelectedAccount) (o : OverrideRule) (p : ProfileBasic)
    (hget : jsMapGet m (ruleKey o) = some p)
    (hexc : isExcluded ex p = false)
    (hbp : o.bypass_eligibility = true) :
    includeStep cfg dateParse now m ex acc o =
      acc ++ [{ profile := p, eligibility := includeOverrideEligibility }] := by
  unfold includeStep
  rw [hget]
  dsimp only
  rw [hexc, hbp]
  simp [includeOverrideEligibility]

/-- Membership of the forced entry in the include fold, for a bypassing,
resolvable, non-excluded rule anywhere in the rule list. -/
theorem mem_foldl_includeStep (cfg : PlatformConfig)
    (dateParse : String → Option ℚ) (now : ℚ)
    (m : List (String × ProfileBasic)) (ex : List String) (o : OverrideRule)
    (p : ProfileBasic)
    (hget : jsMapGet m (ruleKey o) = some p)
    (hexc : isExcluded ex p = false)
    (hbp : o.bypass_eligibility = true) :
    ∀ (l : List OverrideRule) (acc : List SelectedAccount), o ∈ l →
      ({ profile := p, eligibility := includeOverrideEligibility } :
          SelectedAccount) ∈
        l.foldl (includeStep cfg dateParse now m ex) acc := by
  intro l
  induction l with
  | nil => intro acc h; cases h
  | cons x xs ih =>
    intro acc hmem
    rcases List.mem_cons.mp hmem with rfl | hx
    · rw [List.foldl_cons,
        includeStep_bypass_push cfg dateParse now m ex acc o p hget hexc hbp]
      exact foldl_includeStep_mem_of_mem cfg dateParse now m ex xs _ _
        (List.mem_append_right _ (List.mem_singleton.mpr rfl))
    · rw [List.foldl_cons]
      exact ih _ hx

/-- C1: exclude does not always win. When an include rule and an exclude rule
name the same identifier (here the same native id, hence the same rule key)
but the include profile resolution fails, the selector synthesizes a
handle-only fallback profile whose exclusion test checks only its handle key;
the did-keyed exclude rule never matches it, and the account reaches the
output, contradicting the claimed exclude-wins precedence that the selector's
own exclusion check (and the spec's step "skip the rule entirely if
excluded") intends. -/
theorem selector_exclude_not_honored_on_fallback :
    ruleKey c1IncRule = ruleKey c1ExcRule ∧
    selectEligibleAccounts smallCfg noParse 0 [] [] [c1IncRule] [c1ExcRule] =
      [{ profile := c1Fallback,
         eligibility := includeOverrideEligibility }] := by
  constructor
  · rfl
  · decide

/-- C3 counterexample: with a platform maximum of 2 and three distinct
bypassing include rules, the selector returns all three accounts, so the
output length exceeds the configured maximum. -/
theorem selector_cap_exceeded_counterexample :
    capCounterCfg.maxAccounts = 2 ∧
    (selectEligibleAccounts capCounterCfg noParse 0 [] []
        capCounterIncludes []).length = 3 := by
  constructor
  · rfl
  · decide

/-- C3 amended: the selector output length is at most the maximum of the
configured per-platform cap and the number of include-derived accounts; in
particular it is within the cap whenever the include-derived accounts alone
do not exceed it (the overflow branch keeps every include and trims only the
base slice). -/
theorem selector_length_le_max_cap_includes (cfg : PlatformConfig)
    (dateParse : String → Option ℚ) (now : ℚ)
    (baseProfiles includeProfiles : List ProfileBasic)
    (inc exc : List OverrideRule) :
    (selectEligibleAccounts cfg dateParse now baseProfiles includeProfiles
        inc exc).length ≤
      max cfg.maxAccounts
        (selectedInclude cfg dateParse now includeProfiles inc exc).length := by
  simp only [selectEligibleAccounts]
  split
  · simp only [List.length_append, List.length_take]
    omega
  · next h =>
    have hle : (stableSort byFollowersDesc
        (selectedInclude cfg dateParse now includeProfiles inc exc ++
          selectedBase cfg dateParse now baseProfiles includeProfiles inc
            exc)).length ≤ cfg.maxAccounts := Nat.le_of_not_lt h
    exact le_trans hle (le_max_left _ _)

/-- C4 counterexample: an include rule with bypass_eligibility true, matched
by no exclude rule, whose identifier is a native id with no declared handle.
When profile resolution fails there is nothing to synthesize a fallback
from, the rule's key lookup misses, and the selector output is empty: the
claimed account does not appear. -/
theorem selector_unresolved_include_dropped :
    c4xRule.bypass_eligibility = true ∧
    selectEligibleAccounts smallCfg noParse 0 [] [] [c4xRule] [] = [] := by
  constructor
  · rfl
  · decide

/-- C4 amended: every account selected by the include pass survives to the
selector output (capping never removes an include-derived account, only the
base slice is trimmed), and every include rule with bypass_eligibility true
whose key resolves to a profile in the include map (resolution succeeded, or
a fallback was synthesized from a declared handle) that is not matched by the
exclude set appears in the include pass with eligibility forced to
eligible=true, reasons=["admin:include override (bypass=true)"]. -/
theorem selector_preserves_includes (cfg : PlatformConfig)
    (dateParse : String → Option ℚ) (now : ℚ)
    (baseProfiles includeProfiles : List ProfileBasic)
    (inc exc : List OverrideRule) :
    (∀ a ∈ selectedInclude cfg dateParse now includeProfiles inc exc,
        a ∈ selectEligibleAccounts cfg dateParse now baseProfiles
          includeProfiles inc exc) ∧
    (∀ o ∈ inc, o.bypass_eligibility = true →
      ∀ p, jsMapGet (includeByKey includeProfiles inc) (ruleKey o) = some p →
        isExcluded (excludeKeys exc) p = false →
        ({ profile := p, eligibility := includeOverrideEligibility } :
            SelectedAccount) ∈
          selectedInclude cfg dateParse now includeProfiles inc exc) := by
  constructor
  · intro a ha
    simp only [selectEligibleAccounts]
    split
    · exact List.mem_append_left _ ha
    · exact ((stableSort_perm _ _).mem_iff).mpr (List.mem_append_left _ ha)
  · intro o ho hbp p hget hexc
    exact mem_foldl_includeStep cfg dateParse now
      (includeByKey includeProfiles inc) (excludeKeys exc) o p hget hexc hbp
      inc [] ho

/-- Witness for the amended C4 theorem at a concrete input: a single
bypassing include rule by handle, empty base list and failed resolution; the
fallback account appears in the output with the forced eligibility. -/
theorem selector_preserves_includes_witness :
    ({ profile :=
        { did := "", handle := "w.test", displayName := some "w.test",
          followersCount := some 0, postsCount := some 0, createdAt := none },
       eligibility := includeOverrideEligibility } : SelectedAccount) ∈
      selectEligibleAccounts smallCfg noParse 0 [] []
        [mkBypassHandleRule "w.test"] [] := by
  have h := selector_preserves_includes smallCfg noParse 0 [] []
    [mkBypassHandleRule "w.test"] []
  exact h.1 _ (h.2 (mkBypassHandleRule "w.test") (by decide) (by decide) _
    (by decide) (by decide))

/-- C6: eligibility equals the spec formula
followerCheckPassed AND (ageCheckPassed OR ageUnknown); a profile with
unknown createdAt is never penalized for age (its eligibility collapses to
the follower check) and carries the configured unknown-age disclosure
string; a profile whose follower count (default 0) is below the minimum is
ineligible and carries the failing follower comparison string. The Bluesky
and Twitter services share this code shape, differing only in the abstract
configuration (constants and the unknown-age wording), which the statement
quantifies over. -/
theorem computeEligibility_formula (cfg : PlatformConfig)
    (dateParse : String → Option ℚ) (now : ℚ) (profile : ProfileBasic) :
    ((computeEligibility cfg dateParse now profile).eligible =
      (followerCheckPassed cfg profile &&
        (ageCheckPassed cfg dateParse now profile || ageUnknown profile))) ∧
    (ageUnknown profile = true →
      cfg.unknownAgeReason ∈
        (computeEligibility cfg dateParse now profile).reasons ∧
      (computeEligibility cfg dateParse now profile).eligible =
        followerCheckPassed cfg profile) ∧
    (profile.followersCount.getD 0 < cfg.minFollowers →
      (computeEligibility cfg dateParse now profile).eligible = false ∧
      followersFailReason cfg profile ∈
        (computeEligibility cfg dateParse now profile).reasons) := by
  by_cases hf : profile.followersCount.getD 0 < cfg.minFollowers <;>
  rcases hca : profile.createdAt with _ | s
  · refine ⟨?_, fun _ => ⟨?_, ?_⟩, fun _ => ⟨?_, ?_⟩⟩
    · simp [computeEligibility, followerCheckPassed, ageCheckPassed,
        ageUnknown, hca, hf]
    · simp [computeEligibility, hca, hf]
    · simp [computeEligibility, followerCheckPassed, hca, hf]
    · simp [computeEligibility, hca, hf]
    · simp [computeEligibility, hca, hf]
  · by_cases hs : s = ""
    · subst hs
      refine ⟨?_, fun _ => ⟨?_, ?_⟩, fun _ => ⟨?_, ?_⟩⟩
      · simp [computeEligibility, followerCheckPassed, ageCheckPassed,
          ageUnknown, hca, hf]
      · simp [computeEligibility, hca, hf]
      · simp [computeEligibility, followerCheckPassed, hca, hf]
      · simp [computeEligibility, hca, hf]
      · simp [computeEligibility, hca, hf]
    · have hau : ageUnknown profile = false := by
        simp [ageUnknown, hca, hs]
      rcases hdp : dateParse s with _ | t
      · refine ⟨?_, fun hu => absurd hu (by simp [hau]), fun _ => ⟨?_, ?_⟩⟩
        · simp [computeEligibility, followerCheckPassed, ageCheckPassed,
            ageUnknown, hca, hs, hdp, hf]
        · simp [computeEligibility, hca, hs, hdp, hf]
        · simp [computeEligibility, hca, hs, hdp, hf]
      · by_cases hm : monthsBetween t now < cfg.minAccountMonths
        · refine ⟨?_, fun hu => absurd hu (by simp [hau]), fun _ => ⟨?_, ?_⟩⟩
          · simp [computeEligibility, followerCheckPassed, ageCheckPassed,
              ageUnknown, hca, hs, hdp, hm, hf]
          · simp [computeEligibility, hca, hs, hdp, hm, hf]
          · simp [computeEligibility, hca, hs, hdp, hm, hf]
        · refine ⟨?_, fun hu => absurd hu (by simp [hau]), fun _ => ⟨?_, ?_⟩⟩
          · simp [computeEligibility, followerCheckPassed, ageCheckPassed,
              ageUnknown, hca, hs, hdp, hm, hf]
          · simp [computeEligibility, hca, hs, hdp, hm, hf]
          · simp [computeEligibility, hca, hs, hdp, hm, hf]
  · refine ⟨?_, fun _ => ⟨?_, ?_⟩, fun hff => absurd hff hf⟩
    · simp [computeEligibility, followerCheckPassed, ageCheckPassed,
        ageUnknown, hca, hf]
    · simp [computeEligibility, hca, hf]
    · simp [computeEligibility, followerCheckPassed, hca, hf]
  · by_cases hs : s = ""
    · subst hs
      refine ⟨?_, fun _ => ⟨?_, ?_⟩, fun hff => absurd hff hf⟩
      · simp [computeEligibility, followerCheckPassed, ageCheckPassed,
          ageUnknown, hca, hf]
      · simp [computeEligibility, hca, hf]
      · simp [computeEligibility, followerCheckPassed, hca, hf]
    · have hau : ageUnknown profile = false := by
        simp [ageUnknown, hca, hs]
      rcases hdp : dateParse s with _ | t
      · refine ⟨?_, fun hu => absurd hu (by simp [hau]),
          fun hff => absurd hff hf⟩
        simp [computeEligibility, followerCheckPassed, ageCheckPassed,
          ageUnknown, hca, hs, hdp, hf]
      · by_cases hm : monthsBetween t now < cfg.minAccountMonths
        · refine ⟨?_, fun hu => absurd hu (by simp [hau]),
            fun hff => absurd hff hf⟩
          simp [computeEligibility, followerCheckPassed, ageCheckPassed,
            ageUnknown, hca, hs, hdp, hm, hf]
        · refine ⟨?_, fun hu => absurd hu (by simp [hau]),
            fun hff => absurd hff hf⟩
          simp [computeEligibility, followerCheckPassed, ageCheckPassed,
            ageUnknown, hca, hs, hdp, hm, hf]

/-- Witness for the eligibility formula at a concrete input: unknown
createdAt and zero followers against a five-follower minimum give an
ineligible account carrying both the unknown-age disclosure and the failing
follower comparison. -/
theorem computeEligibility_formula_witness :
    (computeEligibility c6wCfg noParse 0 c6wProfile).eligible = false ∧
    bskyUnknownAgeReason ∈
      (computeEligibility c6wCfg noParse 0 c6wProfile).reasons ∧
    followersFailReason c6wCfg c6wProfile ∈
      (computeEligibility c6wCfg noParse 0 c6wProfile).reasons := by
  have h := computeEligibility_formula c6wCfg noParse 0 c6wProfile
  exact ⟨(h.2.2 (by decide)).1, (h.2.1 (by decide)).1, (h.2.2 (by decide)).2⟩

/-- Each sentiment step increments exactly one counter. -/
theorem sentimentStep_sum (score : String → Int) (t : Nat × Nat × Nat)
    (p : SimplePost) :
    (sentimentStep score t p).1 + (sentimentStep score t p).2.1 +
      (sentimentStep score t p).2.2 = t.1 + t.2.1 + t.2.2 + 1 := by
  unfold sentimentStep
  dsimp only
  split
  · simp only []
    omega
  · split <;> simp only [] <;> omega

/-- The counters of the sentiment fold sum to the initial sum plus the number
of posts. -/
theorem sentimentTally_go_sum (score : String → Int) :
    ∀ (l : List SimplePost) (t : Nat × Nat × Nat),
      (l.foldl (sentimentStep score) t).1 +
        (l.foldl (sentimentStep score) t).2.1 +
        (l.foldl (sentimentStep score) t).2.2 =
      t.1 + t.2.1 + t.2.2 + l.length := by
  intro l
  induction l with
  | nil => intro t; simp
  | cons p ps ih =>
    intro t
    rw [List.foldl_cons, ih (sentimentStep score t p), sentimentStep_sum]
    simp only [List.length_cons]
    omega

/-- The three sentiment counters always sum to the post count. -/
theorem sentimentTally_sum (score : String → Int) (posts : List SimplePost) :
    (sentimentTally score posts).1 + (sentimentTally score posts).2.1 +
      (sentimentTally score posts).2.2 = posts.length := by
  have h := sentimentTally_go_sum score posts (0, 0, 0)
  simpa [sentimentTally] using h

/-- C8: for a non-empty post list the sentiment ratios sum to exactly one,
each ratio being the matching counter divided by the total; the empty list
yields the explicit all-zero summary. -/
theorem summarizeSentiment_spec (score : String → Int)
    (posts : List SimplePost) :
    (posts ≠ [] →
      (summarizeSentiment score posts).ratios.pos +
        (summarizeSentiment score posts).ratios.neu +
        (summarizeSentiment score posts).ratios.neg = 1 ∧
      (summarizeSentiment score posts).ratios.pos =
        ((summarizeSentiment score posts).counts.pos : ℚ) /
          ((summarizeSentiment score posts).counts.total : ℚ) ∧
      (summarizeSentiment score posts).ratios.neg =
        ((summarizeSentiment score posts).counts.neg : ℚ) /
          ((summarizeSentiment score posts).counts.total : ℚ) ∧
      (summarizeSentiment score posts).ratios.neu =
        ((summarizeSentiment score posts).counts.neu : ℚ) /
          ((summarizeSentiment score posts).counts.total : ℚ)) ∧
    summarizeSentiment score [] =
      { ratios := { pos := 0, neg := 0, neu := 0 }
        counts := { total := 0, pos := 0, neg := 0, neu := 0 } } := by
  constructor
  · intro hne
    have hlen : posts.length ≠ 0 := fun h => hne (List.length_eq_zero.mp h)
    have hq : ((posts.length : ℚ)) ≠ 0 := Nat.cast_ne_zero.mpr hlen
    have hsum := sentimentTally_sum score posts
    have hcast : ((sentimentTally score posts).1 : ℚ) +
        ((sentimentTally score posts).2.1 : ℚ) +
        ((sentimentTally score posts).2.2 : ℚ) = (posts.length : ℚ) := by
      exact_mod_cast hsum
    refine ⟨?_, ?_, ?_, ?_⟩
    · simp only [summarizeSentiment, hlen, if_false]
      field_simp
      linarith [hcast]
    · simp [summarizeSentiment, hlen]
    · simp [summarizeSentiment, hlen]
    · simp [summarizeSentiment, hlen]
  · rfl

/-- Witness for the sentiment theorem at a single neutral post: the ratios
sum to one. -/
theorem summarizeSentiment_spec_witness :
    (summarizeSentiment zeroScore [c8wPost]).ratios.pos +
      (summarizeSentiment zeroScore [c8wPost]).ratios.neu +
      (summarizeSentiment zeroScore [c8wPost]).ratios.neg = 1 :=
  ((summarizeSentiment_spec zeroScore [c8wPost]).1 (by decide)).1

/-- The per-item feed loop only ever appends. -/
theorem feedItemStep_mem_of_mem (dateParse : String → Option ℚ) (since : ℚ)
    (acct : SelectedAccount) (out : List SimplePost) (item : FeedItem)
    {a : SimplePost} (ha : a ∈ out) :
    a ∈ feedItemStep dateParse since acct out item := by
  unfold feedItemStep
  cases itemCreatedAt item with
  | none => exact ha
  | some s =>
    dsimp only
    split
    · exact ha
    · split
      · exact ha
      · split
        · exact ha
        · exact List.mem_append_left _ ha

/-- Folding the per-item loop preserves accumulated members. -/
theorem foldl_feedItemStep_mem_of_mem (dateParse : String → Option ℚ)
    (since : ℚ) (acct : SelectedAccount) :
    ∀ (feed : List FeedItem) (out : List SimplePost) (a : SimplePost),
      a ∈ out → a ∈ feed.foldl (feedItemStep dateParse since acct) out := by
  intro feed
  induction feed with
  | nil => intro out a ha; exact ha
  | cons it its ih =>
    intro out a ha
    rw [List.foldl_cons]
    exact ih _ a (feedItemStep_mem_of_mem dateParse since acct out it ha)

/-- A text-bearing item with a non-empty timestamp that does not parse is
appended, whatever the window. -/
theorem feedItemStep_keeps_unparseable (dateParse : String → Option ℚ)
    (since : ℚ) (acct : SelectedAccount) (out : List SimplePost)
    (item : FeedItem) (s : String)
    (hca : itemCreatedAt item = some s) (hs : s ≠ "")
    (hparse : dateParse s = none) (htext : itemText item ≠ "") :
    feedItemStep dateParse since acct out item =
      out ++ [feedItemPost acct item s (itemText item)] := by
  unfold feedItemStep
  rw [hca]
  dsimp only
  rw [if_neg hs, hparse]
  simp [htext]

/-- Membership of the kept post in the per-account fold, for an unparseable
item anywhere in the feed. -/
theorem mem_foldl_feedItemStep (dateParse : String → Option ℚ) (since : ℚ)
    (acct : SelectedAccount) (item : FeedItem) (s : String)
    (hca : itemCreatedAt item = some s) (hs : s ≠ "")
    (hparse : dateParse s = none) (htext : itemText item ≠ "") :
    ∀ (feed : List FeedItem) (out : List SimplePost), item ∈ feed →
      feedItemPost acct item s (itemText item) ∈
        feed.foldl (feedItemStep dateParse since acct) out := by
  intro feed
  induction feed with
  | nil => intro out h; cases h
  | cons it its ih =>
    intro out hmem
    rcases List.mem_cons.mp hmem with rfl | hx
    · rw [List.foldl_cons,
        feedItemStep_keeps_unparseable dateParse since acct out item s hca hs
          hparse htext]
      exact foldl_feedItemStep_mem_of_mem dateParse since acct its _ _
        (List.mem_append_right _ (List.mem_singleton.mpr rfl))
    · rw [List.foldl_cons]
      exact ih _ hx

/-- The outer per-account fold preserves accumulated members. -/
theorem foldl_accounts_mem_of_mem (dateParse : String → Option ℚ)
    (since : ℚ) :
    ∀ (accounts : List (SelectedAccount × List FeedItem))
      (out : List SimplePost) (a : SimplePost), a ∈ out →
      a ∈ accounts.foldl (fun out acc =>
        if actorOf acc.1 = "" then out
        else (acc.2).foldl (feedItemStep dateParse since acc.1) out) out := by
  intro accounts
  induction accounts with
  | nil => intro out a ha; exact ha
  | cons x xs ih =>
    intro out a ha
    rw [List.foldl_cons]
    refine ih _ a ?_
    dsimp only
    split
    · exact ha
    · exact foldl_feedItemStep_mem_of_mem dateParse since x.1 x.2 out a ha

/-- Membership of the kept post in the whole per-account fold, for an
unparseable item of any listed account with a usable actor. -/
theorem mem_foldl_accounts (dateParse : String → Option ℚ) (since : ℚ)
    (acct : SelectedAccount) (feed : List FeedItem) (item : FeedItem)
    (s : String) (hactor : actorOf acct ≠ "") (hitem : item ∈ feed)
    (hca : itemCreatedAt item = some s) (hs : s ≠ "")
    (hparse : dateParse s = none) (htext : itemText item ≠ "") :
    ∀ (accounts : List (SelectedAccount × List FeedItem))
      (out : List SimplePost), (acct, feed) ∈ accounts →
      feedItemPost acct item s (itemText item) ∈
        accounts.foldl (fun out acc =>
          if actorOf acc.1 = "" then out
          else (acc.2).foldl (feedItemStep dateParse since acc.1) out) out := by
  intro accounts
  induction accounts with
  | nil => intro out h; cases h
  | cons x xs ih =>
    intro out hmem
    rcases List.mem_cons.mp hmem with heq | hx
    · cases heq.symm
      rw [List.foldl_cons]
      refine foldl_accounts_mem_of_mem dateParse since xs _ _ ?_
      dsimp only
      rw [if_neg hactor]
      exact mem_foldl_feedItemStep dateParse since acct item s hca hs hparse
        htext feed out hitem
    · rw [List.foldl_cons]
      exact ih _ hx

/-- C10 amended: every text-bearing feed item of an account with a usable
actor whose derived createdAt string is non-empty and does not parse to a
finite timestamp passes the recency filter and appears in the returned posts,
for every lookback window. (The claim as stated also covers the empty
createdAt string, which Date.parse likewise maps to NaN but which the
presence check discards before the recency filter runs; see the
counterexample theorem.) -/
theorem fetch_keeps_unparseable_createdAt (dateParse : String → Option ℚ)
    (nowMs defaultRecencyMinutes : ℚ) (sinceMinutes : Option ℚ)
    (accounts : List (SelectedAccount × List FeedItem))
    (acct : SelectedAccount) (feed : List FeedItem) (item : FeedItem)
    (s : String)
    (hacct : (acct, feed) ∈ accounts) (hactor : actorOf acct ≠ "")
    (hitem : item ∈ feed)
    (hca : itemCreatedAt item = some s) (hs : s ≠ "")
    (hparse : dateParse s = none) (htext : itemText item ≠ "") :
    feedItemPost acct item s (itemText item) ∈
      fetchRecentPostsForAccounts dateParse nowMs defaultRecencyMinutes
        sinceMinutes accounts := by
  simp only [fetchRecentPostsForAccounts]
  exact mem_foldl_accounts dateParse _ acct feed item s hactor hitem hca hs
    hparse htext accounts [] hacct

/-- Witness for the amended fetch theorem at a concrete input: a single
account with one text-bearing item whose timestamp does not parse; the post
appears in the output. -/
theorem fetch_keeps_unparseable_createdAt_witness :
    feedItemPost c10Acct c10BadDateItem "not-a-date"
        (itemText c10BadDateItem) ∈
      fetchRecentPostsForAccounts noParse 0 15 none
        [(c10Acct, [c10BadDateItem])] :=
  fetch_keeps_unparseable_createdAt noParse 0 15 none
    [(c10Acct, [c10BadDateItem])] c10Acct [c10BadDateItem] c10BadDateItem
    "not-a-date" (by decide) (by decide) (by decide) (by decide) (by decide)
    (by decide) (by decide)

/-- C10 counterexample: a text-bearing feed item whose createdAt string is
empty. The empty string does not parse to a finite timestamp (Date.parse
gives NaN), yet the item does not appear in the returned posts: the presence
check discards it before the recency filter, so the claim's universal
"appears in the returned posts" fails on it as stated. -/
theorem fetch_drops_empty_createdAt :
    itemText c10EmptyDateItem = "hello" ∧
    noParse "" = none ∧
    fetchRecentPostsForAccounts noParse 0 15 none
      [(c10Acct, [c10EmptyDateItem])] = [] := by
  refine ⟨by decide, rfl, by decide⟩

/-- A get miss means the key is absent. -/
theorem jsMapGet_eq_none {α : Type} (m : List (String × α)) (k : String) :
    jsMapGet m k = none ↔ k ∉ m.map Prod.fst := by
  induction m with
  | nil => simp [jsMapGet]
  | cons e rest ih =>
    obtain ⟨k', v'⟩ := e
    by_cases h : k' = k
    · subst h
      simp [jsMapGet]
    · simp [jsMapGet, h, ih, Ne.symm h]

/-- A get hit is a binding of the map. -/
theorem jsMapGet_some_mem {α : Type} (m : List (String × α)) (k : String)
    (v : α) (h : jsMapGet m k = some v) : (k, v) ∈ m := by
  induction m with
  | nil => simp [jsMapGet] at h
  | cons e rest ih =>
    obtain ⟨k', v'⟩ := e
    by_cases hk : k' = k
    · subst hk
      simp [jsMapGet] at h
      simp [h]
    · simp [jsMapGet, hk] at h
      exact List.mem_cons_of_mem _ (ih h)

/-- Setting an absent key appends the binding. -/
theorem jsMapSet_absent {α : Type} (m : List (String × α)) (k : String)
    (v : α) (h : k ∉ m.map Prod.fst) : jsMapSet m k v = m ++ [(k, v)] := by
  induction m with
  | nil => rfl
  | cons e rest ih =>
    obtain ⟨k', v'⟩ := e
    simp only [List.map_cons, List.mem_cons] at h
    push_neg at h
    simp only [jsMapSet, List.cons_append]
    rw [if_neg (fun hh => h.1 hh.symm), ih h.2]

/-- Setting a present key keeps the key list unchanged. -/
theorem jsMapSet_keys_present {α : Type} (m : List (String × α)) (k : String)
    (v : α) (h : k ∈ m.map Prod.fst) :
    (jsMapSet m k v).map Prod.fst = m.map Prod.fst := by
  induction m with
  | nil => simp at h
  | cons e rest ih =>
    obtain ⟨k', v'⟩ := e
    by_cases hk : k' = k
    · subst hk
      simp [jsMapSet]
    · simp only [List.map_cons, List.mem_cons] at h
      rcases h with h | h
      · exact absurd h.symm hk
      · simp only [jsMapSet, if_neg hk, List.map_cons]
        rw [ih h]

/-- Any binding after a set is the new one or an old one. -/
theorem mem_jsMapSet {α : Type} (m : List (String × α)) (k : String) (v : α)
    (e : String × α) (he : e ∈ jsMapSet m k v) :
    e = (k, v) ∨ e ∈ m := by
  induction m with
  | nil =>
    simp [jsMapSet] at he
    exact Or.inl he
  | cons x rest ih =>
    obtain ⟨k', v'⟩ := x
    by_cases hk : k' = k
    · subst hk
      simp only [jsMapSet, if_pos rfl] at he
      rcases List.mem_cons.mp he with rfl | hmem
      · exact Or.inl rfl
      · exact Or.inr (List.mem_cons_of_mem _ hmem)
    · simp only [jsMapSet, if_neg hk] at he
      rcases List.mem_cons.mp he with rfl | hmem
      · exact Or.inr (List.mem_cons_self _ _)
      · rcases ih hmem with h | h
        · exact Or.inl h
        · exact Or.inr (List.mem_cons_of_mem _ h)

/-- The first-index computation of findIdx restricted to a prefix that
contains a match. -/
theorem findIdx_append_of_exists {α : Type} (p : α → Bool) (l₁ l₂ : List α)
    (h : ∃ x ∈ l₁, p x = true) :
    List.findIdx p (l₁ ++ l₂) = List.findIdx p l₁ := by
  rw [List.findIdx_append]
  rw [if_pos (List.findIdx_lt_length.mpr h)]

/-- With no match in the prefix and a matching head of the suffix, findIdx
lands exactly on the prefix length. -/
theorem findIdx_append_head {α : Type} (p : α → Bool) (l₁ : List α) (x : α)
    (l₂ : List α) (hno : ∀ y ∈ l₁, p y = false) (hx : p x = true) :
    List.findIdx p (l₁ ++ x :: l₂) = l₁.length := by
  rw [List.findIdx_append]
  have hlen : List.findIdx p l₁ = l₁.length := List.findIdx_eq_length.mpr hno
  rw [if_neg (by rw [hlen]; exact lt_irrefl _), List.findIdx_cons, hx]
  simp [hlen]

/-- A lowercase that occurs in a prefix of the keyword list has its first
occurrence index inside that prefix. -/
theorem kwLowIdx_lt_of_mem_prefix (pre rest : List String) (l : String)
    (h : l ∈ pre.map jsToLower) :
    kwLowIdx (pre ++ rest) l < pre.length := by
  obtain ⟨k0, hk0, rfl⟩ := List.mem_map.mp h
  unfold kwLowIdx
  rw [findIdx_append_of_exists _ _ _ ⟨k0, hk0, by simp⟩]
  exact List.findIdx_lt_length.mpr ⟨k0, hk0, by simp⟩

/-- A lowercase that never occurs in the prefix and is introduced by the next
keyword has that keyword's position as its first occurrence index. -/
theorem kwLowIdx_head_of_not_mem (pre rest : List String) (k : String)
    (h : jsToLower k ∉ pre.map jsToLower) :
    kwLowIdx (pre ++ k :: rest) (jsToLower k) = pre.length := by
  unfold kwLowIdx
  apply findIdx_append_head
  · intro y hy
    rw [beq_eq_false_iff_ne]
    intro he
    exact h (List.mem_map.mpr ⟨y, hy, he⟩)
  · simp

/-- Fold invariant of the lowercase-to-original keyword map: every binding
pairs a lowercase key with an original of that lowercase drawn from the
keyword list, keys are distinct, keys appear in order of their first
occurrence in the keyword list, and the key set is exactly the set of
lowercased processed keywords. -/
theorem origByLower_go (keywords : List String) :
    ∀ (rest pre : List String) (m : List (String × String)),
      keywords = pre ++ rest →
      (∀ e ∈ m, e.1 = jsToLower e.2 ∧ e.2 ∈ pre) →
      ((m.map Prod.fst).Pairwise (fun a b => a ≠ b)) →
      ((m.map Prod.fst).Pairwise
        (fun a b => kwLowIdx keywords a < kwLowIdx keywords b)) →
      (∀ l, l ∈ m.map Prod.fst ↔ l ∈ pre.map jsToLower) →
      (∀ e ∈ rest.foldl (fun m k => jsMapSet m (jsToLower k) k) m,
         e.1 = jsToLower e.2 ∧ e.2 ∈ keywords) ∧
      (((rest.foldl (fun m k => jsMapSet m (jsToLower k) k) m).map
          Prod.fst).Pairwise (fun a b => a ≠ b)) ∧
      (((rest.foldl (fun m k => jsMapSet m (jsToLower k) k) m).map
          Prod.fst).Pairwise
        (fun a b => kwLowIdx keywords a < kwLowIdx keywords b)) ∧
      (∀ l, l ∈ (rest.foldl (fun m k => jsMapSet m (jsToLower k) k) m).map
          Prod.fst ↔ l ∈ (pre ++ rest).map jsToLower) := by
  intro rest
  induction rest with
  | nil =>
    intro pre m hsplit H1 H2 H3 H5
    rw [List.append_nil] at hsplit
    subst hsplit
    refine ⟨?_, H2, H3, ?_⟩
    · intro e he
      exact H1 e he
    · intro l
      rw [List.append_nil]
      exact H5 l
  | cons k ks ih =>
    intro pre m hsplit H1 H2 H3 H5
    rw [List.foldl_cons]
    have heq : pre ++ k :: ks = (pre ++ [k]) ++ ks := by
      rw [List.append_assoc]
      rfl
    rw [heq]
    have hsplit' : keywords = (pre ++ [k]) ++ ks := by
      rw [hsplit, List.append_assoc]
      rfl
    have hpre : ∀ l, l ∈ pre.map jsToLower → kwLowIdx keywords l <
        pre.length := by
      intro l hl
      rw [hsplit]
      exact kwLowIdx_lt_of_mem_prefix pre (k :: ks) l hl
    by_cases hmem : jsToLower k ∈ m.map Prod.fst
    · -- present: value replaced in place, keys unchanged
      have hkeys := jsMapSet_keys_present m (jsToLower k) k hmem
      refine ih (pre ++ [k]) (jsMapSet m (jsToLower k) k) hsplit' ?_ ?_ ?_ ?_
      · intro e he
        rcases mem_jsMapSet m (jsToLower k) k e he with rfl | hold
        · exact ⟨rfl, List.mem_append_right _ (List.mem_singleton.mpr rfl)⟩
        · obtain ⟨h1, h2⟩ := H1 e hold
          exact ⟨h1, List.mem_append_left _ h2⟩
      · rw [hkeys]; exact H2
      · rw [hkeys]; exact H3
      · intro l
        rw [hkeys, H5 l, List.map_append]
        constructor
        · intro h
          exact List.mem_append_left _ h
        · intro h
          rcases List.mem_append.mp h with h | h
          · exact h
          · simp only [List.map_cons, List.map_nil, List.mem_singleton] at h
            subst h
            exact (H5 _).mp hmem
    · -- absent: binding appended at the end
      have habs := jsMapSet_absent m (jsToLower k) k hmem
      have hnotpre : jsToLower k ∉ pre.map jsToLower := fun hh =>
        hmem ((H5 _).mpr hh)
      have hidx : kwLowIdx keywords (jsToLower k) = pre.length := by
        rw [hsplit]
        exact kwLowIdx_head_of_not_mem pre ks k hnotpre
      refine ih (pre ++ [k]) (jsMapSet m (jsToLower k) k) hsplit' ?_ ?_ ?_ ?_
      · intro e he
        rcases mem_jsMapSet m (jsToLower k) k e he with rfl | hold
        · exact ⟨rfl, List.mem_append_right _ (List.mem_singleton.mpr rfl)⟩
        · obtain ⟨h1, h2⟩ := H1 e hold
          exact ⟨h1, List.mem_append_left _ h2⟩
      · rw [habs, List.map_append]
        rw [List.pairwise_append]
        refine ⟨H2, List.pairwise_singleton _ _, ?_⟩
        intro a ha b hb
        simp only [List.map_cons, List.map_nil, List.mem_singleton] at hb
        subst hb
        exact fun hh => hmem (hh ▸ ha)
      · rw [habs, List.map_append]
        rw [List.pairwise_append]
        refine ⟨H3, List.pairwise_singleton _ _, ?_⟩
        intro a ha b hb
        simp only [List.map_cons, List.map_nil, List.mem_singleton] at hb
        subst hb
        rw [hidx]
        exact hpre a ((H5 a).mp ha)
      · intro l
        simp only [habs, List.map_append, List.mem_append, List.map_cons,
          List.map_nil, List.mem_singleton, H5 l]

/-- Wrapper: the invariants of the lowercase-to-original map. -/
theorem origByLower_invariants (keywords : List String) :
    (∀ e ∈ origByLower keywords, e.1 = jsToLower e.2 ∧ e.2 ∈ keywords) ∧
    (((origByLower keywords).map Prod.fst).Pairwise (fun a b => a ≠ b)) ∧
    (((origByLower keywords).map Prod.fst).Pairwise
      (fun a b => kwLowIdx keywords a < kwLowIdx keywords b)) := by
  have h := origByLower_go keywords keywords [] [] (by simp) (by simp)
    (by simp) (by simp) (by simp)
  exact ⟨h.1, h.2.1, h.2.2.1⟩

/-- The stored originals of the lowercase-to-original map are pairwise
distinct. -/
theorem origByLower_values_ne (keywords : List String) :
    (origByLower keywords).Pairwise (fun e1 e2 => e1.2 ≠ e2.2) := by
  have h := origByLower_invariants keywords
  have hkeys : (origByLower keywords).Pairwise (fun e1 e2 => e1.1 ≠ e2.1) :=
    List.pairwise_map.mp h.2.1
  refine hkeys.imp_of_mem ?_
  intro a b ha hb hne heq
  exact hne (by rw [(h.1 a ha).1, (h.1 b hb).1, heq])

/-- The stored originals appear in order of their configuration position. -/
theorem origByLower_values_rank (keywords : List String) :
    (origByLower keywords).Pairwise
      (fun e1 e2 => kwConfigIdx keywords e1.2 < kwConfigIdx keywords e2.2) := by
  have h := origByLower_invariants keywords
  have hkeys : (origByLower keywords).Pairwise
      (fun e1 e2 => kwLowIdx keywords e1.1 < kwLowIdx keywords e2.1) :=
    (@List.pairwise_map _ _ Prod.fst
      (fun a b => kwLowIdx keywords a < kwLowIdx keywords b)
      (origByLower keywords)).mp h.2.2
  refine hkeys.imp_of_mem ?_
  intro a b ha hb hlt
  unfold kwConfigIdx
  rw [← (h.1 a ha).1, ← (h.1 b hb).1]
  exact hlt

/-- Any binding after a set on a distinct-key map is the new one or an old
one with a different key. -/
theorem mem_jsMapSet_ne {α : Type} (m : List (String × α)) (k : String)
    (v : α) (hdk : (m.map Prod.fst).Pairwise (fun a b => a ≠ b))
    (e : String × α) (he : e ∈ jsMapSet m k v) :
    e = (k, v) ∨ (e ∈ m ∧ e.1 ≠ k) := by
  induction m with
  | nil =>
    simp [jsMapSet] at he
    exact Or.inl he
  | cons x rest ih =>
    obtain ⟨k', v'⟩ := x
    rw [List.map_cons, List.pairwise_cons] at hdk
    by_cases hk : k' = k
    · subst hk
      simp only [jsMapSet, if_pos rfl] at he
      rcases List.mem_cons.mp he with rfl | hmem
      · exact Or.inl rfl
      · refine Or.inr ⟨List.mem_cons_of_mem _ hmem, ?_⟩
        have : e.1 ∈ rest.map Prod.fst := List.mem_map.mpr ⟨e, hmem, rfl⟩
        exact fun hh => (hdk.1 e.1 this) hh.symm
    · simp only [jsMapSet, if_neg hk] at he
      rcases List.mem_cons.mp he with rfl | hmem
      · exact Or.inr ⟨List.mem_cons_self _ _, hk⟩
      · rcases ih hdk.2 hmem with h | h
        · exact Or.inl h
        · exact Or.inr ⟨List.mem_cons_of_mem _ h.1, h.2⟩

/-- A keyword first matched inside a prefix keeps its first-hit index under
extension. -/
theorem firstHit_append_of_hit (pre rest : List SimplePost) (kw : String)
    (h : ∃ q ∈ pre, matchesKeyword kw q = true) :
    firstHit (pre ++ rest) kw = firstHit pre kw ∧
      firstHit pre kw < pre.length := by
  constructor
  · exact findIdx_append_of_exists _ _ _ h
  · exact List.findIdx_lt_length.mpr h

/-- A keyword first matched by the freshly appended post has the prefix
length as its first-hit index. -/
theorem firstHit_append_head (pre rest : List SimplePost) (p : SimplePost)
    (kw : String) (hno : ∀ q ∈ pre, matchesKeyword kw q = false)
    (hp : matchesKeyword kw p = true) :
    firstHit (pre ++ p :: rest) kw = pre.length :=
  findIdx_append_head _ _ _ _ hno hp

/-- First-match rank over a prefix transports to the extended post list when
both keywords hit inside the prefix. -/
theorem firstMatchRank_extend (pre : List SimplePost) (p : SimplePost)
    (keywords : List String) (a b : String)
    (ha : ∃ q ∈ pre, matchesKeyword a q = true)
    (hb : ∃ q ∈ pre, matchesKeyword b q = true)
    (h : firstMatchRank pre keywords a b) :
    firstMatchRank (pre ++ [p]) keywords a b := by
  obtain ⟨hea, _⟩ := firstHit_append_of_hit pre [p] a ha
  obtain ⟨heb, _⟩ := firstHit_append_of_hit pre [p] b hb
  unfold firstMatchRank at h ⊢
  rw [hea, heb]
  exact h

/-- Invariant transfer of one post through the keyword loop: processing one
post through the whole lowercase-to-original map turns a tally invariant for
the processed prefix into one for the prefix extended by that post. Stated as
a fold over a suffix of the map, with the already-iterated part tracked to
know which counts have been refreshed. -/
theorem bumpCounts_go (keywords : List String) (pre : List SimplePost)
    (p : SimplePost) :
    ∀ (ob2 ob1 : List (String × String)) (c : List (String × Nat)),
      origByLower keywords = ob1 ++ ob2 →
      (∀ e ∈ c, 0 < e.2 ∧
        (e.1 ∈ ob1.map Prod.snd →
          e.2 = (pre ++ [p]).countP (matchesKeyword e.1)) ∧
        (e.1 ∉ ob1.map Prod.snd →
          e.2 = pre.countP (matchesKeyword e.1))) →
      ((c.map Prod.fst).Pairwise (fun a b => a ≠ b)) →
      (∀ o ∈ c.map Prod.fst, o ∈ (origByLower keywords).map Prod.snd) →
      (∀ e ∈ ob1, 0 < (pre ++ [p]).countP (matchesKeyword e.2) →
        e.2 ∈ c.map Prod.fst) →
      (∀ e ∈ ob2, 0 < pre.countP (matchesKeyword e.2) →
        e.2 ∈ c.map Prod.fst) →
      ((c.map Prod.fst).Pairwise (firstMatchRank (pre ++ [p]) keywords)) →
      TallyInv (pre ++ [p]) keywords (origByLower keywords)
        (ob2.foldl (fun c e =>
          if jsIncludes (jsToLower p.text) e.1 then
            jsMapSet c e.2 ((jsMapGet c e.2).getD 0 + 1)
          else c) c) := by
  intro ob2
  induction ob2 with
  | nil =>
    intro ob1 c hsplit B1 B2 B3 B4a B4b B5
    rw [List.foldl_nil]
    rw [List.append_nil] at hsplit
    refine ⟨?_, B2, B3, ?_, B5⟩
    · intro e he
      obtain ⟨hpos, hin, _⟩ := B1 e he
      refine ⟨hpos, hin ?_⟩
      have hkey := B3 e.1 (List.mem_map.mpr ⟨e, he, rfl⟩)
      rw [hsplit] at hkey
      exact hkey
    · intro e he hcnt
      refine B4a e ?_ hcnt
      rw [hsplit] at he
      exact he
  | cons eo ob2' ih =>
    intro ob1 c hsplit B1 B2 B3 B4a B4b B5
    obtain ⟨l, o⟩ := eo
    rw [List.foldl_cons]
    dsimp only
    have hmemo : (l, o) ∈ origByLower keywords := by
      rw [hsplit]
      exact List.mem_append_right _ (List.mem_cons_self _ _)
    have hlow : l = jsToLower o :=
      ((origByLower_invariants keywords).1 _ hmemo).1
    have hvals := origByLower_values_ne keywords
    rw [hsplit, List.pairwise_append] at hvals
    have hcross_ne : ∀ a ∈ ob1, a.2 ≠ o := fun a ha =>
      hvals.2.2 a ha (l, o) (List.mem_cons_self _ _)
    have ho_not_ob1 : o ∉ ob1.map Prod.snd := by
      intro hh
      obtain ⟨a, ha, hae⟩ := List.mem_map.mp hh
      exact hcross_ne a ha hae
    have hrankv := origByLower_values_rank keywords
    rw [hsplit, List.pairwise_append] at hrankv
    have hcross_rank : ∀ a ∈ ob1,
        kwConfigIdx keywords a.2 < kwConfigIdx keywords o := fun a ha =>
      hrankv.2.2 a ha (l, o) (List.mem_cons_self _ _)
    have hmatch : jsIncludes (jsToLower p.text) l = matchesKeyword o p := by
      rw [hlow]
      rfl
    have hsplit' : origByLower keywords = (ob1 ++ [(l, o)]) ++ ob2' := by
      rw [hsplit, List.append_assoc]
      rfl
    have hob1' : ∀ x : String,
        x ∈ (ob1 ++ [(l, o)]).map Prod.snd ↔
          x ∈ ob1.map Prod.snd ∨ x = o := by
      intro x
      simp [List.map_append]
    have hcount_app : ∀ kw : String,
        (pre ++ [p]).countP (matchesKeyword kw) =
          pre.countP (matchesKeyword kw) +
            (if matchesKeyword kw p then 1 else 0) := by
      intro kw
      rw [List.countP_append]
      simp [List.countP_cons]
    by_cases hc : jsIncludes (jsToLower p.text) l = true
    · -- the post contains this keyword
      rw [if_pos hc]
      have hmp : matchesKeyword o p = true := by
        rw [← hmatch]
        exact hc
      by_cases hk : o ∈ c.map Prod.fst
      · -- the keyword already has a tally entry: value bump in place
        have hgs : ∃ v, jsMapGet c o = some v := by
          cases hget : jsMapGet c o with
          | none => exact absurd ((jsMapGet_eq_none c o).mp hget) (fun h => h hk)
          | some v => exact ⟨v, rfl⟩
        obtain ⟨v, hget⟩ := hgs
        have hvmem : (o, v) ∈ c := jsMapGet_some_mem c o v hget
        obtain ⟨hvpos, _, hvout⟩ := B1 (o, v) hvmem
        have hvval : v = pre.countP (matchesKeyword o) := hvout ho_not_ob1
        rw [hget]
        simp only [Option.getD_some]
        have hkeys' := jsMapSet_keys_present c o (v + 1) hk
        refine ih (ob1 ++ [(l, o)]) (jsMapSet c o (v + 1)) hsplit' ?_ ?_ ?_
          ?_ ?_ ?_
        · intro e he
          rcases mem_jsMapSet_ne c o (v + 1) B2 e he with rfl | ⟨hold, hne⟩
          · refine ⟨Nat.succ_pos v, ?_, ?_⟩
            · intro _
              rw [hcount_app o, if_pos hmp, ← hvval]
            · intro hcontra
              exact absurd ((hob1' o).mpr (Or.inr rfl)) hcontra
          · obtain ⟨hpos, hin, hout⟩ := B1 e hold
            refine ⟨hpos, ?_, ?_⟩
            · intro hh
              rcases (hob1' e.1).mp hh with h1 | h1
              · exact hin h1
              · exact absurd h1 hne
            · intro hh
              exact hout (fun h1 => hh ((hob1' e.1).mpr (Or.inl h1)))
        · rw [hkeys']
          exact B2
        · rw [hkeys']
          exact B3
        · intro e' he' hcnt
          rw [hkeys']
          rcases List.mem_append.mp he' with h1 | h1
          · exact B4a e' h1 hcnt
          · rw [List.mem_singleton.mp h1]
            exact hk
        · intro b hb hcnt
          rw [hkeys']
          exact B4b b (List.mem_cons_of_mem _ hb) hcnt
        · rw [hkeys']
          exact B5
      · -- first match of this keyword ever: fresh entry appended
        have hget : jsMapGet c o = none := (jsMapGet_eq_none c o).mpr hk
        rw [hget]
        simp only [Option.getD_none]
        have habs : jsMapSet c o (0 + 1) = c ++ [(o, 0 + 1)] :=
          jsMapSet_absent c o (0 + 1) hk
        rw [habs]
        have hpre0 : pre.countP (matchesKeyword o) = 0 := by
          by_contra hnz
          exact hk (B4b (l, o) (List.mem_cons_self _ _)
            (Nat.pos_of_ne_zero hnz))
        have hnohit : ∀ q ∈ pre, matchesKeyword o q = false := by
          intro q hq
          have := List.countP_eq_zero.mp hpre0 q hq
          cases hqq : matchesKeyword o q with
          | false => rfl
          | true => exact absurd hqq this
        have hfho : firstHit (pre ++ [p]) o = pre.length :=
          firstHit_append_head pre [] p o hnohit hmp
        have hkeys_ne_o : ∀ a ∈ c.map Prod.fst, a ≠ o := by
          intro a ha hae
          exact hk (hae ▸ ha)
        refine ih (ob1 ++ [(l, o)]) (c ++ [(o, 0 + 1)]) hsplit' ?_ ?_ ?_
          ?_ ?_ ?_
        · intro e he
          rcases List.mem_append.mp he with hold | hnew
          · obtain ⟨hpos, hin, hout⟩ := B1 e hold
            have hne : e.1 ≠ o :=
              hkeys_ne_o e.1 (List.mem_map.mpr ⟨e, hold, rfl⟩)
            refine ⟨hpos, ?_, ?_⟩
            · intro hh
              rcases (hob1' e.1).mp hh with h1 | h1
              · exact hin h1
              · exact absurd h1 hne
            · intro hh
              exact hout (fun h1 => hh ((hob1' e.1).mpr (Or.inl h1)))
          · rw [List.mem_singleton.mp hnew]
            refine ⟨Nat.succ_pos 0, ?_, ?_⟩
            · intro _
              rw [hcount_app o, if_pos hmp, hpre0]
            · intro hcontra
              exact absurd ((hob1' o).mpr (Or.inr rfl)) hcontra
        · rw [List.map_append]
          rw [List.pairwise_append]
          refine ⟨B2, by simp, ?_⟩
          intro a ha b hb
          simp only [List.map_cons, List.map_nil, List.mem_singleton] at hb
          subst hb
          exact hkeys_ne_o a ha
        · intro x hx
          rw [List.map_append] at hx
          rcases List.mem_append.mp hx with h1 | h1
          · exact B3 x h1
          · simp only [List.map_cons, List.map_nil, List.mem_singleton] at h1
            rw [h1]
            exact List.mem_map.mpr ⟨(l, o), hmemo, rfl⟩
        · intro e' he' hcnt
          rw [List.map_append]
          rcases List.mem_append.mp he' with h1 | h1
          · exact List.mem_append_left _ (B4a e' h1 hcnt)
          · rw [List.mem_singleton.mp h1]
            exact List.mem_append_right _ (by simp)
        · intro b hb hcnt
          rw [List.map_append]
          exact List.mem_append_left _
            (B4b b (List.mem_cons_of_mem _ hb) hcnt)
        · rw [List.map_append]
          rw [List.pairwise_append]
          refine ⟨B5, by simp, ?_⟩
          intro a ha b hb
          simp only [List.map_cons, List.map_nil, List.mem_singleton] at hb
          subst hb
          obtain ⟨ea, hea, heaeq⟩ := List.mem_map.mp ha
          obtain ⟨hpos, hin, hout⟩ := B1 ea hea
          by_cases hhit : 0 < pre.countP (matchesKeyword a)
          · obtain ⟨q, hq, hmq⟩ := List.countP_pos.mp hhit
            obtain ⟨hfeq, hflt⟩ :=
              firstHit_append_of_hit pre [p] a ⟨q, hq, hmq⟩
            exact Or.inl (by rw [hfeq, hfho]; exact hflt)
          · have hz : pre.countP (matchesKeyword a) = 0 :=
              Nat.eq_zero_of_not_pos hhit
            have hain : ea.1 ∈ ob1.map Prod.snd := by
              by_contra hno
              have hcv := hout hno
              rw [heaeq, hz] at hcv
              exact absurd (hcv ▸ hpos) (lt_irrefl 0)
            have hcnt := hin hain
            have hmap : matchesKeyword a p = true := by
              by_contra hmf
              have hmf' : matchesKeyword a p = false := by
                cases hqq : matchesKeyword a p with
                | false => rfl
                | true => exact absurd hqq hmf
              rw [heaeq, hcount_app a, hz, hmf'] at hcnt
              simp at hcnt
              exact absurd (hcnt ▸ hpos) (lt_irrefl 0)
            have hnohita : ∀ q ∈ pre, matchesKeyword a q = false := by
              intro q hq
              have := List.countP_eq_zero.mp hz q hq
              cases hqq : matchesKeyword a q with
              | false => rfl
              | true => exact absurd hqq this
            have hfa : firstHit (pre ++ [p]) a = pre.length :=
              firstHit_append_head pre [] p a hnohita hmap
            refine Or.inr ⟨by rw [hfa, hfho], ?_⟩
            obtain ⟨a', ha', ha'eq⟩ := List.mem_map.mp (heaeq ▸ hain)
            rw [← ha'eq]
            exact hcross_rank a' ha'
    · -- the post does not contain this keyword: tally unchanged
      rw [if_neg hc]
      have hnf : jsIncludes (jsToLower p.text) l = false := by
        cases hcc : jsIncludes (jsToLower p.text) l with
        | false => rfl
        | true => exact absurd hcc hc
      have hnmp : matchesKeyword o p = false := by
        rw [← hmatch]
        exact hnf
      refine ih (ob1 ++ [(l, o)]) c hsplit' ?_ B2 B3 ?_ ?_ B5
      · intro e he
        obtain ⟨hpos, hin, hout⟩ := B1 e he
        refine ⟨hpos, ?_, ?_⟩
        · intro hh
          rcases (hob1' e.1).mp hh with h1 | h1
          · exact hin h1
          · have hco : e.2 = pre.countP (matchesKeyword e.1) :=
              hout (h1 ▸ ho_not_ob1)
            rw [hcount_app e.1, h1, hnmp] at *
            rw [hco]
            simp
        · intro hh
          exact hout (fun h1 => hh ((hob1' e.1).mpr (Or.inl h1)))
      · intro e' he' hcnt
        rcases List.mem_append.mp he' with h1 | h1
        · exact B4a e' h1 hcnt
        · rw [List.mem_singleton.mp h1] at hcnt ⊢
          rw [hcount_app o, hnmp] at hcnt
          have hcnt' : 0 < pre.countP (matchesKeyword o) := by
            by_contra hz
            rw [Nat.eq_zero_of_not_pos hz] at hcnt
            simp at hcnt
          exact B4b (l, o) (List.mem_cons_self _ _) hcnt'
      · intro b hb hcnt
        exact B4b b (List.mem_cons_of_mem _ hb) hcnt

/-- The tally invariant propagates through the post loop. -/
theorem topicCounts_go (keywords : List String) :
    ∀ (restPosts prePosts : List SimplePost) (c : List (String × Nat)),
      TallyInv prePosts keywords (origByLower keywords) c →
      TallyInv (prePosts ++ restPosts) keywords (origByLower keywords)
        (restPosts.foldl
          (fun c p => bumpCounts (origByLower keywords) (jsToLower p.text) c)
          c) := by
  intro restPosts
  induction restPosts with
  | nil =>
    intro prePosts c hinv
    rw [List.foldl_nil, List.append_nil]
    exact hinv
  | cons p ps ih =>
    intro prePosts c hinv
    rw [List.foldl_cons]
    obtain ⟨C1, C2, C3, C4, C5⟩ := hinv
    have hhits : ∀ a ∈ c.map Prod.fst,
        ∃ q ∈ prePosts, matchesKeyword a q = true := by
      intro a ha
      obtain ⟨ea, hea, rfl⟩ := List.mem_map.mp ha
      obtain ⟨hpos, hcnt⟩ := C1 ea hea
      exact List.countP_pos.mp (hcnt ▸ hpos)
    have hB1 : ∀ e ∈ c, 0 < e.2 ∧
        (e.1 ∈ (([] : List (String × String)).map Prod.snd) →
          e.2 = (prePosts ++ [p]).countP (matchesKeyword e.1)) ∧
        (e.1 ∉ (([] : List (String × String)).map Prod.snd) →
          e.2 = prePosts.countP (matchesKeyword e.1)) := by
      intro e he
      obtain ⟨hpos, hcnt⟩ := C1 e he
      exact ⟨hpos, fun h => absurd h (by simp), fun _ => hcnt⟩
    have hB5 : (c.map Prod.fst).Pairwise
        (firstMatchRank (prePosts ++ [p]) keywords) := by
      refine C5.imp_of_mem ?_
      intro a b ha hb hr
      exact firstMatchRank_extend prePosts p keywords a b
        (hhits a ha) (hhits b hb) hr
    have hstep := bumpCounts_go keywords prePosts p (origByLower keywords)
      [] c (by simp) hB1 C2 C3 (by simp) C4 hB5
    have hstep' : TallyInv (prePosts ++ [p]) keywords (origByLower keywords)
        (bumpCounts (origByLower keywords) (jsToLower p.text) c) := hstep
    have hgoal := ih (prePosts ++ [p])
      (bumpCounts (origByLower keywords) (jsToLower p.text) c) hstep'
    rw [show prePosts ++ p :: ps = (prePosts ++ [p]) ++ ps from by
      rw [List.append_assoc]; rfl]
    exact hgoal

/-- The topic tally satisfies the invariant for the full post list. -/
theorem topicCounts_spec (posts : List SimplePost) (keywords : List String) :
    TallyInv posts keywords (origByLower keywords)
      (topicCounts posts keywords) := by
  have hempty : TallyInv [] keywords (origByLower keywords) [] := by
    refine ⟨by simp, by simp, by simp, ?_, by simp⟩
    intro e _ hcnt
    simp at hcnt
  have h := topicCounts_go keywords posts [] [] hempty
  rw [List.nil_append] at h
  exact h

/-- C7 amended: extractTopics returns at most ten entries; every entry
reports a configured keyword (in stored casing) with a positive count equal
to the number of posts containing it case-insensitively; entries are sorted
by descending count; and ties are broken by the tally's insertion order,
that is, by first matching post and, within one post, by keyword
configuration position — not by configuration order alone. -/
theorem extractTopics_spec (posts : List SimplePost) (keywords : List String) :
    (extractTopics posts keywords).length ≤ 10 ∧
    (∀ e ∈ extractTopics posts keywords,
      e.keyword ∈ keywords ∧ 0 < e.count ∧
      e.count = posts.countP (matchesKeyword e.keyword)) ∧
    (extractTopics posts keywords).Pairwise
      (fun a b => b.count ≤ a.count ∧
        (a.count = b.count →
          firstMatchRank posts keywords a.keyword b.keyword)) := by
  obtain ⟨C1, C2, C3, C4, C5⟩ := topicCounts_spec posts keywords
  have hoblv := origByLower_invariants keywords
  refine ⟨?_, ?_, ?_⟩
  · unfold extractTopics
    exact List.length_take_le _ _
  · intro e he
    unfold extractTopics at he
    have he1 : e ∈ stableSort byCountDesc
        ((topicCounts posts keywords).map (fun e => (⟨e.1, e.2⟩ : TopicEntry)))
      := (List.take_sublist _ _).subset he
    have he2 : e ∈ (topicCounts posts keywords).map
        (fun e => (⟨e.1, e.2⟩ : TopicEntry)) :=
      ((stableSort_perm _ _).mem_iff).mp he1
    obtain ⟨ea, hea, heaeq⟩ := List.mem_map.mp he2
    obtain ⟨hpos, hcnt⟩ := C1 ea hea
    have hkeyw : ea.1 ∈ keywords := by
      have h1 := C3 ea.1 (List.mem_map.mpr ⟨ea, hea, rfl⟩)
      obtain ⟨eb, heb, hebe⟩ := List.mem_map.mp h1
      rw [← hebe]
      exact (hoblv.1 eb heb).2
    rw [← heaeq]
    exact ⟨hkeyw, hpos, hcnt⟩
  · have hmappedPW : ((topicCounts posts keywords).map
        (fun e => (⟨e.1, e.2⟩ : TopicEntry))).Pairwise
        (fun a b => firstMatchRank posts keywords a.keyword b.keyword) := by
      refine (@List.pairwise_map _ _
        (fun e : String × Nat => (⟨e.1, e.2⟩ : TopicEntry))
        (fun a b => firstMatchRank posts keywords a.keyword b.keyword)
        (topicCounts posts keywords)).mpr ?_
      have := (@List.pairwise_map _ _ (Prod.fst)
        (firstMatchRank posts keywords) (topicCounts posts keywords)).mp C5
      exact this
    have htr : ∀ a b c : TopicEntry, byCountDesc a b = true →
        byCountDesc b c = true → byCountDesc a c = true := by
      intro a b c hab hbc
      simp only [byCountDesc, decide_eq_true_eq] at hab hbc ⊢
      omega
    have htot : ∀ a b : TopicEntry,
        byCountDesc a b = true ∨ byCountDesc b a = true := by
      intro a b
      simp only [byCountDesc, decide_eq_true_eq]
      omega
    have hsorted := stableSort_pairwise htr htot hmappedPW
    unfold extractTopics
    refine List.Pairwise.sublist (List.take_sublist _ _) ?_
    refine hsorted.imp ?_
    intro a b hab
    obtain ⟨h1, h2⟩ := hab
    simp only [byCountDesc, decide_eq_true_eq] at h1 h2
    exact ⟨h1, fun heq => h2 (le_of_eq heq)⟩

/-- Witness for the topics theorem at a concrete input: on two posts both
containing "arsenal" (case-insensitively), the entry for the configured
keyword "Arsenal" appears with count 2 and its reported properties hold. -/
theorem extractTopics_spec_witness :
    (⟨"Arsenal", 2⟩ : TopicEntry).keyword ∈ (["Arsenal", "coyg"] : List String) ∧
    0 < (⟨"Arsenal", 2⟩ : TopicEntry).count ∧
    (⟨"Arsenal", 2⟩ : TopicEntry).count =
      ([c7Post "Arsenal win", c7Post "arsenal COYG"]).countP
        (matchesKeyword (⟨"Arsenal", 2⟩ : TopicEntry).keyword) :=
  (extractTopics_spec [c7Post "Arsenal win", c7Post "arsenal COYG"]
    ["Arsenal", "coyg"]).2.1 ⟨"Arsenal", 2⟩ (by decide)

/-- C7 counterexample: with keywords configured ["a", "b"], a first post
containing only "b" and a second containing only "a", both counts are 1 but
the output lists "b" before "a": the tie is broken by the counts map's
insertion order (first matching post), not by the keywords' configuration
order as claimed. -/
theorem extractTopics_tie_not_config_order :
    extractTopics [c7Post "b", c7Post "a"] ["a", "b"] =
      [⟨"b", 1⟩, ⟨"a", 1⟩] ∧
    extractTopics [c7Post "b", c7Post "a"] ["a", "b"] ≠
      [⟨"a", 1⟩, ⟨"b", 1⟩] := by
  constructor
  · decide
  · decide
